import Mathlib

/-!
Verification of the sharded, handle-based LRU cache of this repository
(`src/kudu/util/cache-test.cc` is the visible test surface; the cache core
itself is specified in `spec.md` §3–§4.5 and modelled here).

The model is a single shard (the spec's §4.3 `force-single-shard`
configuration, which the test suite uses for all capacity/eviction
reasoning).  Keys and values are natural numbers — the test suite encodes
`int` keys/values through a fixed 4-byte encoding, which is a bijection and
out of scope per spec §1.  The two-phase Allocate/MutableValue/Insert
protocol is collapsed into `insert` taking the final value, exactly as the
test helper `CacheBaseTest::Insert` uses it.

Eviction-callback invocations are recorded in an append-only log; each log
record additionally carries the (ghost) identity of the torn-down entry so
that "at most once per entry" is directly statable.
-/

namespace KuduCache

/-- Modelled from the spec: §3 **Entry** — key, value bytes, charge,
refcount (the table's implicit reference included), `in_cache`, plus a
`live` flag that is true until the zero-refcount teardown deallocates the
entry. -/
structure Entry where
  key : Nat
  value : Nat
  charge : Nat
  refcount : Nat
  in_cache : Bool
  live : Bool
deriving Repr, DecidableEq

/-- Modelled from the spec: §3 **Shard** / **Sharded Cache** state (single
shard): the entry store (append-only; an entry id is its position), the
intrusive LRU list (entry ids, oldest first), the fixed capacity, the
memory tracker's peak consumption, and the log of eviction-callback
invocations `(entry id, key, value)` in invocation order. -/
structure CacheState where
  entries : List Entry
  lru : List Nat
  capacity : Nat
  peak : Nat
  callbacks : List (Nat × Nat × Nat)
deriving Repr, DecidableEq

/-- Entry lookup by id in the store (`none` past the end). -/
def entryAt : List Entry → Nat → Option Entry
  | [], _ => none
  | e :: _, 0 => some e
  | _ :: rest, n + 1 => entryAt rest n

/-- Point update of the entry store at an id. -/
def modifyEntry : List Entry → Nat → (Entry → Entry) → List Entry
  | [], _, _ => []
  | e :: rest, 0, f => f e :: rest
  | e :: rest, n + 1, f => e :: modifyEntry rest n f

/-- Modelled from the spec: §3 Shard `usage` — the sum of `charge` over
in-cache entries (computed from the store rather than stored separately). -/
def inCacheWeight : List Entry → Nat
  | [] => 0
  | e :: rest => (if e.in_cache then e.charge else 0) + inCacheWeight rest

def usage (s : CacheState) : Nat := inCacheWeight s.entries

/-- Modelled from the spec: §4.5 — with approximation ratio 0 every usage
delta is reported immediately, so the tracker's current consumption always
equals the shard's usage. -/
def consumption (s : CacheState) : Nat := usage s

/-- The charge recorded for an id (0 when out of range). -/
def chargeAt (es : List Entry) (j : Nat) : Nat :=
  match entryAt es j with
  | some e => e.charge
  | none => 0

/-- Sum of the charges of the entries on the LRU list. -/
def lruWeight (s : CacheState) : Nat :=
  (s.lru.map (chargeAt s.entries)).sum

/-- Modelled from the spec: §4.1 Lookup's table search — the id of the
first in-cache entry whose key matches (`none` on miss). -/
def findInCache (es : List Entry) (k : Nat) : Option Nat :=
  match es with
  | [] => none
  | e :: rest =>
    if e.in_cache ∧ e.key = k then some 0
    else (findInCache rest k).map (· + 1)

/-- Modelled from the spec: §4.1 Release / reference dropping — decrement
the refcount; at zero the entry is deallocated and its eviction callback
fires with its final key/value (§3: the unique trigger); at one, if still
in cache, the entry re-enters the LRU list at the most-recently-used end. -/
def unref (s : CacheState) (i : Nat) : CacheState :=
  match entryAt s.entries i with
  | none => s
  | some e =>
    if e.refcount ≤ 1 then
      { s with
        entries := modifyEntry s.entries i
          (fun e => { e with refcount := 0, in_cache := false, live := false }),
        callbacks := s.callbacks ++ [(i, e.key, e.value)] }
    else
      let s' := { s with
        entries := modifyEntry s.entries i
          (fun e => { e with refcount := e.refcount - 1 }) }
      if e.refcount = 2 ∧ e.in_cache then { s' with lru := s'.lru ++ [i] } else s'

/-- Modelled from the spec: removal of an entry from the table (by Erase,
same-key overwrite, or capacity eviction): `in_cache` flips false, the
entry leaves the LRU list, and the table's implicit reference is dropped
(which tears the entry down if that was the last reference). -/
def removeFromTable (s : CacheState) (i : Nat) : CacheState :=
  match entryAt s.entries i with
  | none => s
  | some e =>
    if e.in_cache then
      unref
        { s with
          entries := modifyEntry s.entries i (fun e => { e with in_cache := false }),
          lru := s.lru.filter (fun j => j ≠ i) }
        i
    else s

/-- Modelled from the spec: §4.2 eviction — while usage exceeds capacity
and the LRU list is nonempty, remove the least-recently-used (head)
unpinned entry from the table.  Fuel-recursive; callers pass the LRU list
length, which bounds the number of possible victims. -/
def evictLoop : Nat → CacheState → CacheState
  | 0, s => s
  | fuel + 1, s =>
    if usage s ≤ s.capacity then s
    else
      match s.lru with
      | [] => s
      | v :: _ => evictLoop fuel (removeFromTable s v)

/-- Modelled from the spec: §4.1 Insert, step 1 — if a live entry with the
same key exists it is immediately removed from the table (existing holders
keep a valid but no-longer-lookupable value). -/
def removeOld (s : CacheState) (k : Nat) : CacheState :=
  match findInCache s.entries k with
  | some j => removeFromTable s j
  | none => s

/-- Modelled from the spec: §4.1 Insert, step 2 — the new entry enters the
table with refcount 2 (the table's implicit reference plus the returned
handle); the tracker reports the usage increase immediately (ratio 0), and
peak consumption is updated. -/
def publish (s : CacheState) (k v c : Nat) : CacheState :=
  { s with
    entries := s.entries ++ [Entry.mk k v c 2 true true],
    peak := max s.peak (inCacheWeight (s.entries ++ [Entry.mk k v c 2 true true])) }

/-- Modelled from the spec: §4.1 Insert — remove any same-key entry,
publish the new one, and run capacity eviction (§4.2) as part of
publication.  Returns the caller's handle (the new entry's id). -/
def insert (s : CacheState) (k v c : Nat) : Nat × CacheState :=
  ((removeOld s k).entries.length,
    evictLoop (removeOld s k).lru.length (publish (removeOld s k) k v c))

/-- Modelled from the spec: §4.1 Lookup — on hit, increment the refcount
(moving the entry out of the LRU list if it was only LRU-referenced) and
return a handle; on miss return the sentinel `none`. -/
def lookup (s : CacheState) (k : Nat) : Option Nat × CacheState :=
  match findInCache s.entries k with
  | none => (none, s)
  | some i =>
    (some i,
      { s with
        entries := modifyEntry s.entries i
          (fun e => { e with refcount := e.refcount + 1 }),
        lru := s.lru.filter (fun j => j ≠ i) })

/-- Modelled from the spec: §4.1 Value — non-mutating read through a
handle, valid for the handle's lifetime (i.e. while the entry is live). -/
def value (s : CacheState) (h : Nat) : Option Nat :=
  match entryAt s.entries h with
  | some e => if e.live then some e.value else none
  | none => none

/-- Modelled from the spec: §4.1 Erase — remove the entry (if present)
from the table; teardown happens now iff nothing else holds it.  Erasing
an absent key is a silent no-op. -/
def erase (s : CacheState) (k : Nat) : CacheState :=
  match findInCache s.entries k with
  | none => s
  | some i => removeFromTable s i

/-- The test helper `CacheBaseTest::Insert`: publish and immediately
release the returned handle. -/
def insertOp (s : CacheState) (k v c : Nat) : CacheState :=
  unref (insert s k v c).2 (insert s k v c).1

/-- The test helper `CacheBaseTest::Lookup`: look the key up, read the
value on a hit, release the handle; `none` encodes the helper's `-1`. -/
def lookupOp (s : CacheState) (k : Nat) : Option Nat × CacheState :=
  match lookup s k with
  | (none, s') => (none, s')
  | (some h, s') => (value s' h, unref s' h)

/-- The value observed by a fresh helper-style lookup. -/
def lookupVal (s : CacheState) (k : Nat) : Option Nat :=
  (lookupOp s k).1

/-- A freshly constructed cache of the given capacity. -/
def initCache (cap : Nat) : CacheState :=
  { entries := [], lru := [], capacity := cap, peak := 0, callbacks := [] }

/-- Test-helper-level operations on the cache. -/
inductive Op where
  | ins (k v c : Nat)
  | look (k : Nat)
  | era (k : Nat)
deriving Repr, DecidableEq

def runOp (s : CacheState) : Op → CacheState
  | .ins k v c => insertOp s k v c
  | .look k => (lookupOp s k).2
  | .era k => erase s k

def runOps (s : CacheState) : List Op → CacheState
  | [] => s
  | o :: rest => runOps (runOp s o) rest

/-- Does the operation insert the given key? -/
def insertsKey : Op → Nat → Bool
  | .ins k' _ _, k => k' == k
  | _, _ => false

/-- Does the operation erase the given key? -/
def erasesKey : Op → Nat → Bool
  | .era k', k => k' == k
  | _, _ => false

/-- No in-cache entry carries this key (the key is absent: never inserted,
or since erased/evicted/overwritten-away). -/
def NoKeyInCache (s : CacheState) (k : Nat) : Prop :=
  ∀ e ∈ s.entries, e.in_cache = true → e.key ≠ k

/-- The key is currently published with this value: some entry with this
key and value is in the cache — i.e. it was inserted and has not since
been overwritten, erased, or evicted (spec §3: reachable by Lookup iff
`in_cache`). -/
def KeyMapsTo (s : CacheState) (k v : Nat) : Prop :=
  ∃ i e, entryAt s.entries i = some e ∧ e.in_cache = true ∧
    e.key = k ∧ e.value = v

/-! ### Store-access toolkit -/

/-- The LRU list is duplicate-free and holds exactly entries that are
in-cache and held only by the table's implicit reference (spec §3 Shard). -/
def LruWF (s : CacheState) : Prop :=
  s.lru.Nodup ∧
  (∀ j ∈ s.lru, ∃ e, entryAt s.entries j = some e ∧
    e.in_cache = true ∧ e.refcount = 1) ∧
  (∀ j e, entryAt s.entries j = some e → e.in_cache = true → e.refcount = 1 →
    j ∈ s.lru)

/-- Per-entry lifecycle sanity (spec §3 invariants): in-cache entries are
live; live entries carry at least the reference that keeps them live;
deallocated entries are fully torn down. -/
def EntryWF (s : CacheState) : Prop :=
  ∀ i e, entryAt s.entries i = some e →
    (e.in_cache = true → e.live = true) ∧
    (e.live = true → 1 ≤ e.refcount) ∧
    (e.live = false → e.refcount = 0 ∧ e.in_cache = false)

/-- At most one in-cache entry per key (spec §3: keys unique in cache). -/
def KeyUnique (s : CacheState) : Prop :=
  ∀ i j e f, entryAt s.entries i = some e → entryAt s.entries j = some f →
    e.in_cache = true → f.in_cache = true → e.key = f.key → i = j

/-- The eviction-callback log fires at most once per entry, only for
entries that are torn down (refcount 0, no longer in the table), and
reports their final key/value (spec §3: the `refcount == 0` transition is
the unique trigger). -/
def LogWF (s : CacheState) : Prop :=
  (s.callbacks.map (fun c => c.1)).Nodup ∧
  ∀ c ∈ s.callbacks, ∃ e, entryAt s.entries c.1 = some e ∧
    e.live = false ∧ e.in_cache = false ∧ e.refcount = 0 ∧
    e.key = c.2.1 ∧ e.value = c.2.2

def Inv (s : CacheState) : Prop :=
  LruWF s ∧ EntryWF s ∧ KeyUnique s ∧ LogWF s

/-- The caller owns an outstanding reference on this handle: the entry is
live and its refcount strictly exceeds what the table alone accounts for.
This is the spec §7 "paired use" discipline — a Release is only legal for
a handle that Lookup/Insert returned and that was not yet released. -/
def OwnsRef (s : CacheState) (h : Nat) : Prop :=
  ∃ e, entryAt s.entries h = some e ∧ e.live = true ∧ 1 ≤ e.refcount ∧
    (e.in_cache = true → 2 ≤ e.refcount)

/-- One public-API interaction (spec §6): insert (with or without holding
on to the returned handle), lookup (ditto), release of an owned handle,
or erase. -/
inductive Step : CacheState → CacheState → Prop where
  | ins (s : CacheState) (k v c : Nat) : Step s (insertOp s k v c)
  | insHold (s : CacheState) (k v c : Nat) : Step s (insert s k v c).2
  | look (s : CacheState) (k : Nat) : Step s (lookupOp s k).2
  | lookHold (s : CacheState) (k : Nat) : Step s (lookup s k).2
  | rel (s : CacheState) (h : Nat) (hv : OwnsRef s h) : Step s (unref s h)
  | era (s : CacheState) (k : Nat) : Step s (erase s k)

/-- States reachable from a fresh cache by public-API interactions. -/
def Reachable (cap : Nat) (s : CacheState) : Prop :=
  Relation.ReflTransGen Step (initCache cap) s

/-- Precondition under which the model's operations invoke `unref`: the
entry is live and referenced, and a last reference is only dropped after
the entry has left the table (spec §3 invariant). -/
def UnrefOk (s : CacheState) (i : Nat) : Prop :=
  ∃ e, entryAt s.entries i = some e ∧ e.live = true ∧ 1 ≤ e.refcount ∧
    (e.refcount = 1 → e.in_cache = false)

/-- No live entry is held by anything beyond the table's implicit
reference (the situation of a test that releases every handle at once). -/
def AllTableOnly (s : CacheState) : Prop :=
  ∀ i e, entryAt s.entries i = some e → e.live = true → e.refcount = 1

/-- The charge the entry at an id contributes to `usage`. -/
def entryWeight (es : List Entry) (j : Nat) : Nat :=
  match entryAt es j with
  | some e => if e.in_cache then e.charge else 0
  | none => 0

/-- Whether the entry at an id is in the cache. -/
def inCacheAt (es : List Entry) (j : Nat) : Bool :=
  match entryAt es j with
  | some e => e.in_cache
  | none => false

/-- Like `AllTableOnly`, but the (pinned) entry being inserted is exempt. -/
def AllButNew (s : CacheState) (n : Nat) : Prop :=
  ∀ i e, entryAt s.entries i = some e → e.live = true → i ≠ n → e.refcount = 1

/-- The charge an operation adds (inserts only). -/
def opCharge : Op → Nat
  | .ins _ _ c => c
  | _ => 0

/-- Cumulative charge inserted by a trace. -/
def totalCharge (ops : List Op) : Nat := (ops.map opCharge).sum

/-- The `LRUCacheTest.EvictionPolicy` scenario, scaled down: keys 1 and 2
are inserted first; then eight single-use keys are inserted past the
capacity of 4, each followed by a lookup of itself and a lookup of the
"hot" key 1 (key 2 is never touched again). -/
def evictionScenario : List Op :=
  [Op.ins 1 100 1, Op.ins 2 200 1] ++
  (List.range 8).flatMap (fun i =>
    [Op.ins (10 + i) (110 + i) 1, Op.look (10 + i), Op.look 1])

theorem entryAt_lt_length {es : List Entry} {i : Nat} {e : Entry}
    (h : entryAt es i = some e) : i < es.length := by
  induction es generalizing i with
  | nil => simp [entryAt] at h
  | cons a rest ih =>
    cases i with
    | zero => simp
    | succ n =>
      simp only [entryAt] at h
      simpa using Nat.succ_lt_succ (ih h)

theorem entryAt_eq_none_of_le {es : List Entry} {i : Nat}
    (h : es.length ≤ i) : entryAt es i = none := by
  induction es generalizing i with
  | nil => simp [entryAt]
  | cons a rest ih =>
    cases i with
    | zero => simp at h
    | succ n =>
      simp only [entryAt]
      exact ih (by simpa using h)

theorem entryAt_mem {es : List Entry} {i : Nat} {e : Entry}
    (h : entryAt es i = some e) : e ∈ es := by
  induction es generalizing i with
  | nil => simp [entryAt] at h
  | cons a rest ih =>
    cases i with
    | zero =>
      simp only [entryAt, Option.some.injEq] at h
      simp [h]
    | succ n =>
      simp only [entryAt] at h
      exact List.mem_cons_of_mem _ (ih h)

theorem mem_iff_entryAt {es : List Entry} {e : Entry} :
    e ∈ es ↔ ∃ i, entryAt es i = some e := by
  constructor
  · intro h
    induction es with
    | nil => simp at h
    | cons a rest ih =>
      rcases List.mem_cons.mp h with rfl | h'
      · exact ⟨0, rfl⟩
      · obtain ⟨i, hi⟩ := ih h'
        exact ⟨i + 1, hi⟩
  · rintro ⟨i, hi⟩
    exact entryAt_mem hi

theorem length_modifyEntry (es : List Entry) (i : Nat) (f : Entry → Entry) :
    (modifyEntry es i f).length = es.length := by
  induction es generalizing i with
  | nil => rfl
  | cons a rest ih =>
    cases i with
    | zero => rfl
    | succ n => simp [modifyEntry, ih]

theorem entryAt_modifyEntry_self {es : List Entry} {i : Nat} {f : Entry → Entry} :
    entryAt (modifyEntry es i f) i = (entryAt es i).map f := by
  induction es generalizing i with
  | nil => rfl
  | cons a rest ih =>
    cases i with
    | zero => rfl
    | succ n => simpa [modifyEntry, entryAt] using ih

theorem entryAt_modifyEntry_ne {es : List Entry} {i j : Nat} {f : Entry → Entry}
    (h : j ≠ i) : entryAt (modifyEntry es i f) j = entryAt es j := by
  induction es generalizing i j with
  | nil => rfl
  | cons a rest ih =>
    cases i with
    | zero =>
      cases j with
      | zero => exact absurd rfl h
      | succ m => rfl
    | succ n =>
      cases j with
      | zero => rfl
      | succ m =>
        simp only [modifyEntry, entryAt]
        exact ih (by omega)

theorem mem_modifyEntry {es : List Entry} {i : Nat} {f : Entry → Entry} {e' : Entry}
    (h : e' ∈ modifyEntry es i f) : e' ∈ es ∨ ∃ e ∈ es, e' = f e := by
  induction es generalizing i with
  | nil => simp [modifyEntry] at h
  | cons a rest ih =>
    cases i with
    | zero =>
      rcases List.mem_cons.mp h with rfl | h'
      · exact Or.inr ⟨a, List.mem_cons_self _ _, rfl⟩
      · exact Or.inl (List.mem_cons_of_mem _ h')
    | succ n =>
      rcases List.mem_cons.mp h with rfl | h'
      · exact Or.inl (List.mem_cons_self _ _)
      · rcases ih h' with h'' | ⟨e, he, rfl⟩
        · exact Or.inl (List.mem_cons_of_mem _ h'')
        · exact Or.inr ⟨e, List.mem_cons_of_mem _ he, rfl⟩

theorem entryAt_modifyEntry_cases {es : List Entry} {i : Nat} {f : Entry → Entry}
    {j : Nat} {e : Entry} (h : entryAt (modifyEntry es i f) j = some e) :
    ∃ e₀, entryAt es j = some e₀ ∧ ((j ≠ i ∧ e = e₀) ∨ (j = i ∧ e = f e₀)) := by
  by_cases hji : j = i
  · subst hji
    rw [entryAt_modifyEntry_self] at h
    cases h0 : entryAt es j with
    | none => rw [h0] at h; exact Option.noConfusion h
    | some e₀ =>
      rw [h0, Option.map_some', Option.some.injEq] at h
      exact ⟨e₀, rfl, Or.inr ⟨rfl, h.symm⟩⟩
  · rw [entryAt_modifyEntry_ne hji] at h
    exact ⟨e, h, Or.inl ⟨hji, rfl⟩⟩

theorem entryAt_append_lt {es es' : List Entry} {i : Nat}
    (h : i < es.length) : entryAt (es ++ es') i = entryAt es i := by
  induction es generalizing i with
  | nil => simp at h
  | cons a rest ih =>
    cases i with
    | zero => rfl
    | succ n =>
      simp only [List.cons_append, entryAt]
      exact ih (by simpa using h)

theorem entryAt_append_len {es : List Entry} {e : Entry} :
    entryAt (es ++ [e]) es.length = some e := by
  induction es with
  | nil => rfl
  | cons a rest ih => simpa [entryAt] using ih

/-! ### findInCache characterization -/

theorem findInCache_eq_none_iff {es : List Entry} {k : Nat} :
    findInCache es k = none ↔ ∀ e ∈ es, e.in_cache = true → e.key ≠ k := by
  induction es with
  | nil => simp [findInCache]
  | cons a rest ih =>
    by_cases h : a.in_cache ∧ a.key = k
    · simp only [findInCache, if_pos h]
      constructor
      · intro hcontr; exact absurd hcontr (by simp)
      · intro hall
        exact absurd h.2 (hall a (List.mem_cons_self _ _) (by simpa using h.1))
    · simp only [findInCache, if_neg h]
      cases hrest : findInCache rest k with
      | none =>
        simp only [Option.map_none', true_iff]
        intro e he hin
        rcases List.mem_cons.mp he with rfl | he'
        · intro hk
          exact h ⟨by simpa using hin, hk⟩
        · exact ih.mp hrest e he' hin
      | some j =>
        simp only [Option.map_some']
        constructor
        · intro hcontr
          exact Option.noConfusion hcontr
        · intro hall
          exfalso
          have hnone := ih.mpr (fun e he => hall e (List.mem_cons_of_mem _ he))
          rw [hrest] at hnone
          exact Option.noConfusion hnone


theorem findInCache_some_spec {es : List Entry} {k : Nat} {i : Nat}
    (h : findInCache es k = some i) :
    ∃ e, entryAt es i = some e ∧ e.in_cache = true ∧ e.key = k := by
  induction es generalizing i with
  | nil => simp [findInCache] at h
  | cons a rest ih =>
    by_cases hc : a.in_cache ∧ a.key = k
    · simp only [findInCache, if_pos hc, Option.some.injEq] at h
      subst h
      exact ⟨a, rfl, by simpa using hc.1, hc.2⟩
    · simp only [findInCache, if_neg hc] at h
      cases hrest : findInCache rest k with
      | none => simp [hrest] at h
      | some j =>
        rw [hrest] at h
        simp only [Option.map_some', Option.some.injEq] at h
        subst h
        obtain ⟨e, he, hin, hk⟩ := ih hrest
        exact ⟨e, he, hin, hk⟩

theorem findInCache_append_single {es : List Entry} {en : Entry} {k : Nat}
    (hnone : ∀ e ∈ es, e.in_cache = true → e.key ≠ k)
    (hin : en.in_cache = true) (hk : en.key = k) :
    findInCache (es ++ [en]) k = some es.length := by
  induction es with
  | nil => simp [findInCache, hin, hk]
  | cons a rest ih =>
    have ha : ¬(a.in_cache ∧ a.key = k) := by
      intro hcontr
      exact hnone a (List.mem_cons_self _ _) (by simpa using hcontr.1) hcontr.2
    have hres := ih (fun e he => hnone e (List.mem_cons_of_mem _ he))
    simp only [List.cons_append, findInCache, if_neg ha, List.append_eq, hres,
      Option.map_some', List.length_cons]

/-! ### Weight accounting -/

theorem inCacheWeight_append (es es' : List Entry) :
    inCacheWeight (es ++ es') = inCacheWeight es + inCacheWeight es' := by
  induction es with
  | nil => simp [inCacheWeight]
  | cons a rest ih => simp [inCacheWeight, ih, Nat.add_assoc]

theorem inCacheWeight_modifyEntry {es : List Entry} {i : Nat} {f : Entry → Entry} {e : Entry}
    (h : entryAt es i = some e) :
    inCacheWeight (modifyEntry es i f) + (if e.in_cache then e.charge else 0)
      = inCacheWeight es + (if (f e).in_cache then (f e).charge else 0) := by
  induction es generalizing i with
  | nil => simp [entryAt] at h
  | cons a rest ih =>
    cases i with
    | zero =>
      simp only [entryAt, Option.some.injEq] at h
      subst h
      simp only [modifyEntry, inCacheWeight]
      omega
    | succ n =>
      simp only [entryAt] at h
      simp only [modifyEntry, inCacheWeight]
      have := ih h
      omega

theorem inCacheWeight_modify_keep {es : List Entry} {i : Nat} {f : Entry → Entry} {e : Entry}
    (h : entryAt es i = some e)
    (hin : (f e).in_cache = e.in_cache) (hch : (f e).charge = e.charge) :
    inCacheWeight (modifyEntry es i f) = inCacheWeight es := by
  have := inCacheWeight_modifyEntry (f := f) h
  rw [hin, hch] at this
  omega

theorem inCacheWeight_modify_off {es : List Entry} {i : Nat} {f : Entry → Entry} {e : Entry}
    (h : entryAt es i = some e) (he : e.in_cache = true) (hf : (f e).in_cache = false) :
    inCacheWeight (modifyEntry es i f) + e.charge = inCacheWeight es := by
  have := inCacheWeight_modifyEntry (f := f) h
  rw [he, hf] at this
  simpa using this

/-! ### Invariants and the step relation -/

theorem keyUnique_modify {s s' : CacheState} {i : Nat} {f : Entry → Entry}
    (hk : KeyUnique s) (hes : s'.entries = modifyEntry s.entries i f)
    (hpk : ∀ x, (f x).key = x.key)
    (hpi : ∀ x, (f x).in_cache = true → x.in_cache = true) :
    KeyUnique s' := by
  intro a b e g hfa hgb hfin hgin hkeq
  rw [hes] at hfa hgb
  obtain ⟨e₀, he₀, hce⟩ := entryAt_modifyEntry_cases hfa
  obtain ⟨g₀, hg₀, hcg⟩ := entryAt_modifyEntry_cases hgb
  have hek : e.key = e₀.key := by
    rcases hce with ⟨_, rfl⟩ | ⟨_, rfl⟩
    · rfl
    · exact hpk e₀
  have hei : e₀.in_cache = true := by
    rcases hce with ⟨_, rfl⟩ | ⟨_, rfl⟩
    · exact hfin
    · exact hpi e₀ hfin
  have hgk : g.key = g₀.key := by
    rcases hcg with ⟨_, rfl⟩ | ⟨_, rfl⟩
    · rfl
    · exact hpk g₀
  have hgi : g₀.in_cache = true := by
    rcases hcg with ⟨_, rfl⟩ | ⟨_, rfl⟩
    · exact hgin
    · exact hpi g₀ hgin
  exact hk a b e₀ g₀ he₀ hg₀ hei hgi (by rw [← hek, ← hgk, hkeq])

theorem inv_init (cap : Nat) : Inv (initCache cap) := by
  refine ⟨⟨List.nodup_nil, ?_⟩, ?_, ?_, ⟨List.nodup_nil, ?_⟩⟩ <;>
    simp [initCache, entryAt, LruWF, EntryWF, KeyUnique, LogWF]

/-! ### unref: shape lemmas and invariant preservation -/

theorem ownsRef_unrefOk {s : CacheState} {h : Nat} (ho : OwnsRef s h) : UnrefOk s h := by
  obtain ⟨e, he, hlive, hrc, hpin⟩ := ho
  refine ⟨e, he, hlive, hrc, fun h1 => ?_⟩
  by_contra hin
  have : 2 ≤ e.refcount := hpin (by simpa using hin)
  omega

theorem unref_eq_of_none {s : CacheState} {i : Nat}
    (h : entryAt s.entries i = none) : unref s i = s := by
  unfold unref
  rw [h]

theorem unref_eq_teardown {s : CacheState} {i : Nat} {e : Entry}
    (h : entryAt s.entries i = some e) (hrc : e.refcount ≤ 1) :
    unref s i =
      { s with
        entries := modifyEntry s.entries i
          (fun e => { e with refcount := 0, in_cache := false, live := false }),
        callbacks := s.callbacks ++ [(i, e.key, e.value)] } := by
  unfold unref
  rw [h]
  simp [hrc]

theorem unref_eq_toLru {s : CacheState} {i : Nat} {e : Entry}
    (h : entryAt s.entries i = some e) (hrc : e.refcount = 2) (hin : e.in_cache = true) :
    unref s i =
      { s with
        entries := modifyEntry s.entries i
          (fun e => { e with refcount := e.refcount - 1 }),
        lru := s.lru ++ [i] } := by
  unfold unref
  rw [h]
  simp [hrc, hin]

theorem unref_eq_dec {s : CacheState} {i : Nat} {e : Entry}
    (h : entryAt s.entries i = some e) (hrc : 2 ≤ e.refcount)
    (hnot : ¬(e.refcount = 2 ∧ e.in_cache = true)) :
    unref s i =
      { s with
        entries := modifyEntry s.entries i
          (fun e => { e with refcount := e.refcount - 1 }) } := by
  unfold unref
  rw [h]
  simp only [if_neg (by omega : ¬ e.refcount ≤ 1), if_neg hnot]

theorem logged_ne_of_live {s : CacheState} (hlog : LogWF s) {i : Nat} {e : Entry}
    (hi : entryAt s.entries i = some e) (hlive : e.live = true) :
    ∀ c ∈ s.callbacks, c.1 ≠ i := by
  intro c hc hci
  obtain ⟨f, hf, hfdead, _⟩ := hlog.2 c hc
  rw [hci, hi] at hf
  cases hf
  rw [hlive] at hfdead
  exact Bool.noConfusion hfdead

theorem not_mem_lru_of_rc {s : CacheState} (hlru : LruWF s) {i : Nat} {e : Entry}
    (hi : entryAt s.entries i = some e) (hrc : e.refcount ≠ 1) : i ∉ s.lru := by
  intro hmem
  obtain ⟨f, hf, _, hfrc⟩ := hlru.2.1 i hmem
  rw [hi] at hf
  cases hf
  exact hrc hfrc

theorem not_mem_lru_of_uncached {s : CacheState} (hlru : LruWF s) {i : Nat} {e : Entry}
    (hi : entryAt s.entries i = some e) (hin : e.in_cache = false) : i ∉ s.lru := by
  intro hmem
  obtain ⟨f, hf, hfin, _⟩ := hlru.2.1 i hmem
  rw [hi] at hf
  cases hf
  rw [hin] at hfin
  exact Bool.noConfusion hfin

theorem inv_unref {s : CacheState} {i : Nat} (hInv : Inv s) (hok : UnrefOk s i) :
    Inv (unref s i) := by
  obtain ⟨hlru, hent, hkey, hlog⟩ := hInv
  obtain ⟨e, he, hlive, hrc1, hlast⟩ := hok
  by_cases hrc : e.refcount ≤ 1
  · -- teardown: the last reference is dropped, entry deallocated
    have hrceq : e.refcount = 1 := by omega
    have hnin : e.in_cache = false := hlast hrceq
    rw [unref_eq_teardown he hrc]
    have hinotlru : i ∉ s.lru := not_mem_lru_of_uncached ⟨hlru.1, hlru.2⟩ he hnin
    refine ⟨⟨hlru.1, ?_, ?_⟩, ?_, ?_, ⟨?_, ?_⟩⟩
    · -- LruWF: members are unchanged entries (i is not among them)
      intro j hj
      have hji : j ≠ i := by
        rintro rfl
        obtain ⟨f, hf, hfin, _⟩ := hlru.2.1 j hj
        rw [he] at hf
        cases hf
        rw [hnin] at hfin
        exact Bool.noConfusion hfin
      obtain ⟨f, hf, hfin, hfrc⟩ := hlru.2.1 j hj
      exact ⟨f, by rw [entryAt_modifyEntry_ne hji]; exact hf, hfin, hfrc⟩
    · -- LRU completeness: the torn-down entry is out of the cache
      intro j g hg hgin hgrc
      obtain ⟨g₀, hg₀, hcg⟩ := entryAt_modifyEntry_cases hg
      rcases hcg with ⟨hji, hgg⟩ | ⟨hji, hgg⟩
      · exact hlru.2.2 j g₀ hg₀ (hgg ▸ hgin) (hgg ▸ hgrc)
      · subst hji
        rw [hgg] at hgin
        exact absurd hgin (by simp)
    · -- EntryWF
      intro j f hf
      by_cases hji : j = i
      · subst hji
        rw [entryAt_modifyEntry_self, he] at hf
        cases hf
        refine ⟨by simp, by simp, fun _ => by simp⟩
      · rw [entryAt_modifyEntry_ne hji] at hf
        exact hent j f hf
    · -- KeyUnique
      intro a b f g hfa hgb hfin hgin hkeq
      by_cases hai : a = i
      · subst hai
        rw [entryAt_modifyEntry_self, he] at hfa
        cases hfa
        exact Bool.noConfusion hfin
      · by_cases hbi : b = i
        · subst hbi
          rw [entryAt_modifyEntry_self, he] at hgb
          cases hgb
          exact Bool.noConfusion hgin
        · rw [entryAt_modifyEntry_ne hai] at hfa
          rw [entryAt_modifyEntry_ne hbi] at hgb
          exact hkey a b f g hfa hgb hfin hgin hkeq
    · -- LogWF: the freshly logged id was live until now, hence not yet logged
      rw [List.map_append]
      refine List.Nodup.append hlog.1 (by simp) ?_
      intro a ha hb
      simp only [List.map_cons, List.map_nil, List.mem_singleton] at hb
      subst hb
      obtain ⟨c, hc, hc1⟩ := List.mem_map.mp ha
      exact logged_ne_of_live ⟨hlog.1, hlog.2⟩ he hlive c hc hc1
    · intro c hc
      rcases List.mem_append.mp hc with hold | hnew
      · obtain ⟨f, hf, hfl, hfc, hfr, hfk, hfv⟩ := hlog.2 c hold
        have hci : c.1 ≠ i := logged_ne_of_live ⟨hlog.1, hlog.2⟩ he hlive c hold
        exact ⟨f, by rw [entryAt_modifyEntry_ne hci]; exact hf, hfl, hfc, hfr, hfk, hfv⟩
      · simp only [List.mem_singleton] at hnew
        subst hnew
        refine ⟨{ e with refcount := 0, in_cache := false, live := false }, ?_,
          rfl, rfl, rfl, rfl, rfl⟩
        rw [entryAt_modifyEntry_self, he]
        rfl
  · -- a pinned reference is dropped, the entry stays live
    have hrc2 : 2 ≤ e.refcount := by omega
    have hinotlru : i ∉ s.lru := not_mem_lru_of_rc ⟨hlru.1, hlru.2⟩ he (by omega)
    by_cases hcase : e.refcount = 2 ∧ e.in_cache = true
    · -- the entry drops back to only the table's reference: re-enters LRU
      rw [unref_eq_toLru he hcase.1 hcase.2]
      refine ⟨⟨?_, ?_, ?_⟩, ?_, ?_, ⟨hlog.1, ?_⟩⟩
      · simpa [List.nodup_append] using ⟨hlru.1, fun hmem => hinotlru hmem⟩
      · intro j hj
        rcases List.mem_append.mp hj with hjl | hji
        · have hji : j ≠ i := fun hc => hinotlru (hc ▸ hjl)
          obtain ⟨f, hf, hfin, hfrc⟩ := hlru.2.1 j hjl
          exact ⟨f, by rw [entryAt_modifyEntry_ne hji]; exact hf, hfin, hfrc⟩
        · simp only [List.mem_singleton] at hji
          subst hji
          refine ⟨_, by rw [entryAt_modifyEntry_self, he]; rfl, by simpa using hcase.2, ?_⟩
          simp [hcase.1]
      · intro j g hg hgin hgrc
        obtain ⟨g₀, hg₀, hcg⟩ := entryAt_modifyEntry_cases hg
        rcases hcg with ⟨hji, hgg⟩ | ⟨hji, hgg⟩
        · exact List.mem_append.mpr (Or.inl (hlru.2.2 j g₀ hg₀ (hgg ▸ hgin) (hgg ▸ hgrc)))
        · subst hji
          exact List.mem_append.mpr (Or.inr (by simp))
      · intro j g hg
        obtain ⟨g₀, hg₀, hcg⟩ := entryAt_modifyEntry_cases hg
        rcases hcg with ⟨hji, hgg⟩ | ⟨hji, hgg⟩
        · rw [hgg]
          exact hent j g₀ hg₀
        · subst hji
          rw [he] at hg₀
          cases hg₀
          rw [hgg]
          refine ⟨fun _ => hlive, fun _ => ?_, fun hfl => absurd hfl (by simp [hlive])⟩
          show 1 ≤ e.refcount - 1
          omega
      · exact keyUnique_modify hkey rfl (fun x => rfl) (fun x hx => hx)
      · intro c hc
        obtain ⟨f, hf, hfl, hfc, hfr, hfk, hfv⟩ := hlog.2 c hc
        have hci : c.1 ≠ i := logged_ne_of_live ⟨hlog.1, hlog.2⟩ he hlive c hc
        exact ⟨f, by rw [entryAt_modifyEntry_ne hci]; exact hf, hfl, hfc, hfr, hfk, hfv⟩
    · -- still pinned (or already out of the table): only the count moves
      rw [unref_eq_dec he hrc2 hcase]
      refine ⟨⟨hlru.1, ?_, ?_⟩, ?_, ?_, ⟨hlog.1, ?_⟩⟩
      · intro j hj
        have hji : j ≠ i := fun hc => hinotlru (hc ▸ hj)
        obtain ⟨f, hf, hfin, hfrc⟩ := hlru.2.1 j hj
        exact ⟨f, by rw [entryAt_modifyEntry_ne hji]; exact hf, hfin, hfrc⟩
      · intro j g hg hgin hgrc
        obtain ⟨g₀, hg₀, hcg⟩ := entryAt_modifyEntry_cases hg
        rcases hcg with ⟨hji, hgg⟩ | ⟨hji, hgg⟩
        · exact hlru.2.2 j g₀ hg₀ (hgg ▸ hgin) (hgg ▸ hgrc)
        · subst hji
          rw [he] at hg₀
          cases hg₀
          exfalso
          rw [hgg] at hgin hgrc
          apply hcase
          refine ⟨?_, hgin⟩
          have hd : e.refcount - 1 = 1 := hgrc
          omega
      · intro j g hg
        obtain ⟨g₀, hg₀, hcg⟩ := entryAt_modifyEntry_cases hg
        rcases hcg with ⟨hji, hgg⟩ | ⟨hji, hgg⟩
        · rw [hgg]
          exact hent j g₀ hg₀
        · subst hji
          rw [he] at hg₀
          cases hg₀
          rw [hgg]
          refine ⟨fun _ => hlive, fun _ => ?_, fun hfl => absurd hfl (by simp [hlive])⟩
          show 1 ≤ e.refcount - 1
          omega
      · exact keyUnique_modify hkey rfl (fun x => rfl) (fun x hx => hx)
      · intro c hc
        obtain ⟨f, hf, hfl, hfc, hfr, hfk, hfv⟩ := hlog.2 c hc
        have hci : c.1 ≠ i := logged_ne_of_live ⟨hlog.1, hlog.2⟩ he hlive c hc
        exact ⟨f, by rw [entryAt_modifyEntry_ne hci]; exact hf, hfl, hfc, hfr, hfk, hfv⟩

/-! ### Frame lemmas and preservation for removeFromTable and evictLoop -/

theorem unref_capacity (s : CacheState) (i : Nat) : (unref s i).capacity = s.capacity := by
  unfold unref
  cases entryAt s.entries i with
  | none => rfl
  | some e =>
    by_cases h1 : e.refcount ≤ 1
    · simp [h1]
    · by_cases h2 : e.refcount = 2 ∧ e.in_cache = true <;> simp [h1, h2]

theorem unref_peak (s : CacheState) (i : Nat) : (unref s i).peak = s.peak := by
  unfold unref
  cases entryAt s.entries i with
  | none => rfl
  | some e =>
    by_cases h1 : e.refcount ≤ 1
    · simp [h1]
    · by_cases h2 : e.refcount = 2 ∧ e.in_cache = true <;> simp [h1, h2]

theorem unref_length (s : CacheState) (i : Nat) :
    (unref s i).entries.length = s.entries.length := by
  unfold unref
  cases entryAt s.entries i with
  | none => rfl
  | some e =>
    by_cases h1 : e.refcount ≤ 1
    · simp [h1, length_modifyEntry]
    · by_cases h2 : e.refcount = 2 ∧ e.in_cache = true <;> simp [h1, h2, length_modifyEntry]

theorem unref_entryAt_ne (s : CacheState) {i j : Nat} (hji : j ≠ i) :
    entryAt (unref s i).entries j = entryAt s.entries j := by
  unfold unref
  cases entryAt s.entries i with
  | none => rfl
  | some e =>
    by_cases h1 : e.refcount ≤ 1
    · simp [h1, entryAt_modifyEntry_ne hji]
    · by_cases h2 : e.refcount = 2 ∧ e.in_cache = true <;>
        simp [h1, h2, entryAt_modifyEntry_ne hji]

theorem unref_callbacks (s : CacheState) (i : Nat) :
    ∃ l, (unref s i).callbacks = s.callbacks ++ l := by
  unfold unref
  cases entryAt s.entries i with
  | none => exact ⟨[], by simp⟩
  | some e =>
    by_cases h1 : e.refcount ≤ 1
    · exact ⟨[(i, e.key, e.value)], by simp [h1]⟩
    · by_cases h2 : e.refcount = 2 ∧ e.in_cache = true <;>
        exact ⟨[], by simp [h1, h2]⟩

theorem unref_lru_of_uncached {s : CacheState} {i : Nat} {e : Entry}
    (he : entryAt s.entries i = some e) (hin : e.in_cache = false) :
    (unref s i).lru = s.lru := by
  unfold unref
  rw [he]
  by_cases h1 : e.refcount ≤ 1
  · simp [h1]
  · have h2 : ¬(e.refcount = 2 ∧ e.in_cache = true) := by simp [hin]
    simp [h1, h2]

theorem unfold_removeFromTable_none {s : CacheState} {i : Nat}
    (he : entryAt s.entries i = none) : removeFromTable s i = s := by
  unfold removeFromTable
  rw [he]

theorem unfold_removeFromTable_skip {s : CacheState} {i : Nat} {e : Entry}
    (he : entryAt s.entries i = some e) (hin : e.in_cache ≠ true) :
    removeFromTable s i = s := by
  unfold removeFromTable
  rw [he]
  simp [hin]

theorem removeFromTable_capacity (s : CacheState) (i : Nat) :
    (removeFromTable s i).capacity = s.capacity := by
  unfold removeFromTable
  cases entryAt s.entries i with
  | none => rfl
  | some e =>
    by_cases hin : e.in_cache = true
    · simp only [hin, if_true]
      rw [unref_capacity]
    · simp [hin]

theorem removeFromTable_peak (s : CacheState) (i : Nat) :
    (removeFromTable s i).peak = s.peak := by
  unfold removeFromTable
  cases entryAt s.entries i with
  | none => rfl
  | some e =>
    by_cases hin : e.in_cache = true
    · simp only [hin, if_true]
      rw [unref_peak]
    · simp [hin]

theorem removeFromTable_length (s : CacheState) (i : Nat) :
    (removeFromTable s i).entries.length = s.entries.length := by
  unfold removeFromTable
  cases entryAt s.entries i with
  | none => rfl
  | some e =>
    by_cases hin : e.in_cache = true
    · simp only [hin, if_true]
      rw [unref_length]
      simp [length_modifyEntry]
    · simp [hin]

theorem removeFromTable_entryAt_ne (s : CacheState) {i j : Nat} (hji : j ≠ i) :
    entryAt (removeFromTable s i).entries j = entryAt s.entries j := by
  unfold removeFromTable
  cases entryAt s.entries i with
  | none => rfl
  | some e =>
    by_cases hin : e.in_cache = true
    · simp only [hin, if_true]
      rw [unref_entryAt_ne _ hji]
      simp [entryAt_modifyEntry_ne hji]
    · simp [hin]

theorem removeFromTable_lru_sub (s : CacheState) (i : Nat) :
    (removeFromTable s i).lru ⊆ s.lru := by
  unfold removeFromTable
  cases he : entryAt s.entries i with
  | none => exact fun a h => h
  | some e =>
    by_cases hin : e.in_cache = true
    · simp only [hin, if_true]
      rw [unref_lru_of_uncached (e := { e with in_cache := false })
        (by rw [entryAt_modifyEntry_self, he]; rfl) rfl]
      intro a ha
      exact (List.mem_filter.mp ha).1
    · simp [hin]

theorem removeFromTable_callbacks (s : CacheState) (i : Nat) :
    ∃ l, (removeFromTable s i).callbacks = s.callbacks ++ l := by
  unfold removeFromTable
  cases he : entryAt s.entries i with
  | none => exact ⟨[], by simp⟩
  | some e =>
    by_cases hin : e.in_cache = true
    · simp only [hin, if_true]
      exact unref_callbacks _ i
    · simp only [hin]
      exact ⟨[], by simp⟩

theorem inv_removeFromTable {s : CacheState} {i : Nat} (hInv : Inv s) :
    Inv (removeFromTable s i) := by
  obtain ⟨hlru, hent, hkey, hlog⟩ := hInv
  cases he : entryAt s.entries i with
  | none =>
    unfold removeFromTable
    rw [he]
    exact ⟨hlru, hent, hkey, hlog⟩
  | some e =>
    by_cases hin : e.in_cache = true
    · have hlive : e.live = true := (hent i e he).1 hin
      have hrc1 : 1 ≤ e.refcount := (hent i e he).2.1 hlive
      unfold removeFromTable
      rw [he]
      simp only [hin, if_true]
      apply inv_unref
      · -- the intermediate (unindexed but still live) state satisfies Inv
        refine ⟨⟨List.Nodup.filter _ hlru.1, ?_, ?_⟩, ?_, ?_, ⟨hlog.1, ?_⟩⟩
        · intro j hj
          have hj' := List.mem_filter.mp hj
          have hji : j ≠ i := by simpa using hj'.2
          obtain ⟨f, hf, hfin, hfrc⟩ := hlru.2.1 j hj'.1
          exact ⟨f, by rw [entryAt_modifyEntry_ne hji]; exact hf, hfin, hfrc⟩
        · intro j g hg hgin hgrc
          obtain ⟨g₀, hg₀, hcg⟩ := entryAt_modifyEntry_cases hg
          rcases hcg with ⟨hji, hgg⟩ | ⟨hji, hgg⟩
          · refine List.mem_filter.mpr ⟨hlru.2.2 j g₀ hg₀ (hgg ▸ hgin) (hgg ▸ hgrc), ?_⟩
            simpa using hji
          · subst hji
            rw [hgg] at hgin
            exact absurd hgin (by simp)
        · intro j g hg
          obtain ⟨g₀, hg₀, hcg⟩ := entryAt_modifyEntry_cases hg
          rcases hcg with ⟨hji, hgg⟩ | ⟨hji, hgg⟩
          · rw [hgg]
            exact hent j g₀ hg₀
          · subst hji
            rw [he] at hg₀
            cases hg₀
            rw [hgg]
            refine ⟨fun _ => hlive, fun _ => hrc1, fun hfl => ?_⟩
            exact absurd hfl (by simp [hlive])
        · exact keyUnique_modify hkey rfl (fun x => rfl) (fun x hx => by
            exact absurd hx (by simp))
        · intro c hc
          obtain ⟨f, hf, hfl, hfc, hfr, hfk, hfv⟩ := hlog.2 c hc
          have hci : c.1 ≠ i := logged_ne_of_live ⟨hlog.1, hlog.2⟩ he hlive c hc
          exact ⟨f, by rw [entryAt_modifyEntry_ne hci]; exact hf, hfl, hfc, hfr, hfk, hfv⟩
      · -- the table's reference may now legally be dropped
        refine ⟨{ e with in_cache := false }, ?_, hlive, hrc1, fun _ => rfl⟩
        rw [entryAt_modifyEntry_self, he]
        rfl
    · unfold removeFromTable
      rw [he]
      simp only [hin]
      exact ⟨hlru, hent, hkey, hlog⟩

theorem inv_evictLoop (fuel : Nat) {s : CacheState} (hInv : Inv s) :
    Inv (evictLoop fuel s) := by
  induction fuel generalizing s with
  | zero => exact hInv
  | succ n ih =>
    unfold evictLoop
    by_cases hle : usage s ≤ s.capacity
    · simp only [hle, if_true]
      exact hInv
    · simp only [hle, if_false]
      cases s.lru with
      | nil => exact hInv
      | cons v rest => exact ih (inv_removeFromTable hInv)

theorem evictLoop_capacity (fuel : Nat) (s : CacheState) :
    (evictLoop fuel s).capacity = s.capacity := by
  induction fuel generalizing s with
  | zero => rfl
  | succ n ih =>
    unfold evictLoop
    by_cases hle : usage s ≤ s.capacity
    · simp [hle]
    · simp only [hle, if_false]
      cases s.lru with
      | nil => rfl
      | cons v rest => rw [ih, removeFromTable_capacity]

theorem evictLoop_peak (fuel : Nat) (s : CacheState) :
    (evictLoop fuel s).peak = s.peak := by
  induction fuel generalizing s with
  | zero => rfl
  | succ n ih =>
    unfold evictLoop
    by_cases hle : usage s ≤ s.capacity
    · simp [hle]
    · simp only [hle, if_false]
      cases s.lru with
      | nil => rfl
      | cons v rest => rw [ih, removeFromTable_peak]

theorem evictLoop_length (fuel : Nat) (s : CacheState) :
    (evictLoop fuel s).entries.length = s.entries.length := by
  induction fuel generalizing s with
  | zero => rfl
  | succ n ih =>
    unfold evictLoop
    by_cases hle : usage s ≤ s.capacity
    · simp [hle]
    · simp only [hle, if_false]
      cases s.lru with
      | nil => rfl
      | cons v rest => rw [ih, removeFromTable_length]

theorem evictLoop_lru_sub (fuel : Nat) (s : CacheState) :
    (evictLoop fuel s).lru ⊆ s.lru := by
  induction fuel generalizing s with
  | zero => exact fun a h => h
  | succ n ih =>
    unfold evictLoop
    by_cases hle : usage s ≤ s.capacity
    · simp only [hle, if_true]
      exact fun a h => h
    · simp only [hle, if_false]
      cases hl : s.lru with
      | nil =>
        intro a ha
        have ha' : a ∈ s.lru := ha
        rw [hl] at ha'
        exact ha'
      | cons v rest =>
        intro a ha
        have hmid := ih (s := removeFromTable s v) ha
        have h2 := removeFromTable_lru_sub s v hmid
        rw [hl] at h2
        exact h2

theorem evictLoop_entryAt_not_lru (fuel : Nat) {s : CacheState} {i : Nat}
    (hni : i ∉ s.lru) :
    entryAt (evictLoop fuel s).entries i = entryAt s.entries i := by
  induction fuel generalizing s with
  | zero => rfl
  | succ n ih =>
    unfold evictLoop
    by_cases hle : usage s ≤ s.capacity
    · simp [hle]
    · simp only [hle, if_false]
      cases hl : s.lru with
      | nil => rfl
      | cons v rest =>
        have hvi : i ≠ v := by
          rintro rfl
          exact hni (by rw [hl]; exact List.mem_cons_self _ _)
        have hni' : i ∉ (removeFromTable s v).lru := by
          intro hmem
          exact hni (removeFromTable_lru_sub s v hmem)
        rw [ih hni', removeFromTable_entryAt_ne _ hvi]

theorem evictLoop_callbacks (fuel : Nat) (s : CacheState) :
    ∃ l, (evictLoop fuel s).callbacks = s.callbacks ++ l := by
  induction fuel generalizing s with
  | zero => exact ⟨[], by simp [evictLoop]⟩
  | succ n ih =>
    unfold evictLoop
    by_cases hle : usage s ≤ s.capacity
    · simp only [hle, if_true]
      exact ⟨[], by simp⟩
    · simp only [hle, if_false]
      cases hl : s.lru with
      | nil => exact ⟨[], by simp⟩
      | cons v rest =>
        obtain ⟨l1, hl1⟩ := ih (s := removeFromTable s v)
        obtain ⟨l0, hl0⟩ := removeFromTable_callbacks s v
        exact ⟨l0 ++ l1, by rw [hl1, hl0, List.append_assoc]⟩

/-! ### Preservation for insert, lookup, erase and the composites -/

theorem entryAt_append_cases {es : List Entry} {x : Entry} {j : Nat} {g : Entry}
    (h : entryAt (es ++ [x]) j = some g) :
    (j < es.length ∧ entryAt es j = some g) ∨ (j = es.length ∧ g = x) := by
  have hlt : j < es.length + 1 := by
    have := entryAt_lt_length h
    simpa using this
  by_cases hj : j < es.length
  · rw [entryAt_append_lt hj] at h
    exact Or.inl ⟨hj, h⟩
  · have hj' : j = es.length := by omega
    subst hj'
    rw [entryAt_append_len] at h
    cases h
    exact Or.inr ⟨rfl, rfl⟩

theorem lru_mem_lt {s : CacheState} (hlru : LruWF s) {j : Nat} (hj : j ∈ s.lru) :
    j < s.entries.length := by
  obtain ⟨e, he, _, _⟩ := hlru.2.1 j hj
  exact entryAt_lt_length he

theorem removeFromTable_uncached_self {s : CacheState} {i : Nat} {e : Entry}
    (he : entryAt s.entries i = some e) (hin : e.in_cache = true) :
    ∃ e', entryAt (removeFromTable s i).entries i = some e' ∧ e'.in_cache = false := by
  unfold removeFromTable
  rw [he]
  simp only [hin, if_true]
  have ht : entryAt (modifyEntry s.entries i
      (fun e => { e with in_cache := false })) i = some { e with in_cache := false } := by
    rw [entryAt_modifyEntry_self, he]
    rfl
  unfold unref
  rw [ht]
  by_cases h1 : ({ e with in_cache := false } : Entry).refcount ≤ 1
  · simp only [h1, if_true]
    refine ⟨{ e with refcount := 0, in_cache := false, live := false }, ?_, rfl⟩
    rw [entryAt_modifyEntry_self, ht]
    rfl
  · have h2 : ¬(({ e with in_cache := false } : Entry).refcount = 2 ∧
        ({ e with in_cache := false } : Entry).in_cache = true) := by
      simp
    simp only [h1, if_false, h2]
    refine ⟨{ e with in_cache := false, refcount := e.refcount - 1 }, ?_, rfl⟩
    rw [entryAt_modifyEntry_self, ht]
    rfl

theorem noKey_after_remove {s : CacheState} {k : Nat} {j : Nat} (hInv : Inv s)
    (hf : findInCache s.entries k = some j) :
    NoKeyInCache (removeFromTable s j) k := by
  obtain ⟨ej, hej, hejin, hejk⟩ := findInCache_some_spec hf
  intro e' he' hin' hkey'
  obtain ⟨i, hi⟩ := mem_iff_entryAt.mp he'
  by_cases hij : i = j
  · subst hij
    obtain ⟨e'', he'', he''in⟩ := removeFromTable_uncached_self hej hejin
    rw [hi] at he''
    cases he''
    rw [hin'] at he''in
    exact Bool.noConfusion he''in
  · rw [removeFromTable_entryAt_ne _ hij] at hi
    exact hij (hInv.2.2.1 i j e' ej hi hej hin' hejin (by rw [hkey', hejk]))

theorem inv_removeOld {s : CacheState} {k : Nat} (hInv : Inv s) :
    Inv (removeOld s k) := by
  unfold removeOld
  cases findInCache s.entries k with
  | none => exact hInv
  | some j => exact inv_removeFromTable hInv

theorem noKey_removeOld {s : CacheState} {k : Nat} (hInv : Inv s) :
    NoKeyInCache (removeOld s k) k := by
  unfold removeOld
  cases hf : findInCache s.entries k with
  | none =>
    intro e he hin
    exact findInCache_eq_none_iff.mp hf e he hin
  | some j => exact noKey_after_remove hInv hf

theorem inv_publish {s : CacheState} {k v c : Nat} (hInv : Inv s)
    (hnk : NoKeyInCache s k) : Inv (publish s k v c) := by
  obtain ⟨hlru, hent, hkey, hlog⟩ := hInv
  refine ⟨⟨hlru.1, ?_, ?_⟩, ?_, ?_, ⟨hlog.1, ?_⟩⟩
  · intro j hj
    obtain ⟨e, he, hein, herc⟩ := hlru.2.1 j hj
    refine ⟨e, ?_, hein, herc⟩
    show entryAt (s.entries ++ [Entry.mk k v c 2 true true]) j = some e
    rw [entryAt_append_lt (entryAt_lt_length he)]
    exact he
  · intro j g hg hgin hgrc
    rcases entryAt_append_cases hg with ⟨hjlt, hj⟩ | ⟨hjeq, hge⟩
    · exact hlru.2.2 j g hj hgin hgrc
    · rw [hge] at hgrc
      exact absurd hgrc (by simp)
  · intro j g hg
    rcases entryAt_append_cases hg with ⟨hjlt, hj⟩ | ⟨hjeq, hge⟩
    · exact hent j g hj
    · rw [hge]
      exact ⟨fun _ => rfl, fun _ => by simp, fun hfl => Bool.noConfusion hfl⟩
  · intro a b e g hea hgb hein hgin hkeq
    rcases entryAt_append_cases hea with ⟨halt, ha⟩ | ⟨haeq, hae⟩
    · rcases entryAt_append_cases hgb with ⟨hblt, hb⟩ | ⟨hbeq, hbe⟩
      · exact hkey a b e g ha hb hein hgin hkeq
      · exfalso
        rw [hbe] at hgin hkeq
        exact hnk e (entryAt_mem ha) hein (by simpa using hkeq)
    · rcases entryAt_append_cases hgb with ⟨hblt, hb⟩ | ⟨hbeq, hbe⟩
      · exfalso
        rw [hae] at hein hkeq
        exact hnk g (entryAt_mem hb) hgin (by simpa using hkeq.symm)
      · rw [haeq, hbeq]
  · intro cb hcb
    obtain ⟨f, hf, hfl, hfc, hfr, hfk, hfv⟩ := hlog.2 cb hcb
    refine ⟨f, ?_, hfl, hfc, hfr, hfk, hfv⟩
    show entryAt (s.entries ++ [Entry.mk k v c 2 true true]) cb.1 = some f
    rw [entryAt_append_lt (entryAt_lt_length hf)]
    exact hf

theorem publish_lru (s : CacheState) (k v c : Nat) : (publish s k v c).lru = s.lru := rfl

theorem publish_entryAt_new (s : CacheState) (k v c : Nat) :
    entryAt (publish s k v c).entries s.entries.length
      = some (Entry.mk k v c 2 true true) :=
  entryAt_append_len

theorem insert_snd_entryAt_new {s : CacheState} {k v c : Nat} (hInv : Inv s) :
    entryAt (insert s k v c).2.entries (insert s k v c).1
      = some (Entry.mk k v c 2 true true) := by
  show entryAt (evictLoop (removeOld s k).lru.length
      (publish (removeOld s k) k v c)).entries (removeOld s k).entries.length
    = some (Entry.mk k v c 2 true true)
  have hInv1 := inv_removeOld (k := k) hInv
  have hnotlru : (removeOld s k).entries.length ∉ (publish (removeOld s k) k v c).lru := by
    rw [publish_lru]
    intro hmem
    exact absurd (lru_mem_lt hInv1.1 hmem) (by omega)
  rw [evictLoop_entryAt_not_lru _ hnotlru]
  exact publish_entryAt_new _ _ _ _

theorem inv_insert_snd {s : CacheState} {k v c : Nat} (hInv : Inv s) :
    Inv (insert s k v c).2 :=
  inv_evictLoop _ (inv_publish (inv_removeOld hInv) (noKey_removeOld hInv))

theorem ownsRef_insert {s : CacheState} {k v c : Nat} (hInv : Inv s) :
    OwnsRef (insert s k v c).2 (insert s k v c).1 :=
  ⟨Entry.mk k v c 2 true true, insert_snd_entryAt_new hInv, rfl, by simp,
    fun _ => by simp⟩

theorem inv_insertOp {s : CacheState} {k v c : Nat} (hInv : Inv s) :
    Inv (insertOp s k v c) :=
  inv_unref (inv_insert_snd hInv) (ownsRef_unrefOk (ownsRef_insert hInv))

theorem inv_lookup_snd {s : CacheState} {k : Nat} (hInv : Inv s) :
    Inv (lookup s k).2 := by
  obtain ⟨hlru, hent, hkey, hlog⟩ := hInv
  unfold lookup
  cases hf : findInCache s.entries k with
  | none => exact ⟨hlru, hent, hkey, hlog⟩
  | some i =>
    obtain ⟨e, he, hein, hek⟩ := findInCache_some_spec hf
    have hlive : e.live = true := (hent i e he).1 hein
    have hrc1 : 1 ≤ e.refcount := (hent i e he).2.1 hlive
    refine ⟨⟨List.Nodup.filter _ hlru.1, ?_, ?_⟩, ?_, ?_, ⟨hlog.1, ?_⟩⟩
    · intro j hj
      have hj' := List.mem_filter.mp hj
      have hji : j ≠ i := by simpa using hj'.2
      obtain ⟨f, hfj, hfin, hfrc⟩ := hlru.2.1 j hj'.1
      exact ⟨f, by rw [entryAt_modifyEntry_ne hji]; exact hfj, hfin, hfrc⟩
    · intro j g hg hgin hgrc
      obtain ⟨g₀, hg₀, hcg⟩ := entryAt_modifyEntry_cases hg
      rcases hcg with ⟨hji, hgg⟩ | ⟨hji, hgg⟩
      · refine List.mem_filter.mpr ⟨hlru.2.2 j g₀ hg₀ (hgg ▸ hgin) (hgg ▸ hgrc), ?_⟩
        simpa using hji
      · subst hji
        rw [he] at hg₀
        cases hg₀
        exfalso
        rw [hgg] at hgrc
        have : e.refcount + 1 = 1 := hgrc
        omega
    · intro j g hg
      obtain ⟨g₀, hg₀, hcg⟩ := entryAt_modifyEntry_cases hg
      rcases hcg with ⟨hji, hgg⟩ | ⟨hji, hgg⟩
      · rw [hgg]
        exact hent j g₀ hg₀
      · subst hji
        rw [he] at hg₀
        cases hg₀
        rw [hgg]
        refine ⟨fun _ => hlive, fun _ => by simp, fun hfl => absurd hfl (by simp [hlive])⟩
    · exact keyUnique_modify hkey rfl (fun x => rfl) (fun x hx => hx)
    · intro cb hcb
      obtain ⟨f, hf, hfl, hfc, hfr, hfk, hfv⟩ := hlog.2 cb hcb
      have hci : cb.1 ≠ i := logged_ne_of_live ⟨hlog.1, hlog.2⟩ he hlive cb hcb
      exact ⟨f, by rw [entryAt_modifyEntry_ne hci]; exact hf, hfl, hfc, hfr, hfk, hfv⟩

theorem lookup_hit_eq {s : CacheState} {k : Nat} {i : Nat}
    (hf : findInCache s.entries k = some i) :
    lookup s k = (some i,
      { s with
        entries := modifyEntry s.entries i
          (fun e => { e with refcount := e.refcount + 1 }),
        lru := s.lru.filter (fun j => j ≠ i) }) := by
  unfold lookup
  rw [hf]

theorem lookup_hit_unrefOk {s : CacheState} {k : Nat} {i : Nat} (hInv : Inv s)
    (hf : findInCache s.entries k = some i) : UnrefOk (lookup s k).2 i := by
  obtain ⟨e, he, hein, hek⟩ := findInCache_some_spec hf
  have hlive : e.live = true := (hInv.2.1 i e he).1 hein
  have hrc1 : 1 ≤ e.refcount := (hInv.2.1 i e he).2.1 hlive
  rw [lookup_hit_eq hf]
  refine ⟨{ e with refcount := e.refcount + 1 }, ?_, by simpa using hlive, by simp, ?_⟩
  · show entryAt (modifyEntry s.entries i
      (fun e => { e with refcount := e.refcount + 1 })) i = some _
    rw [entryAt_modifyEntry_self, he]
    rfl
  · intro hone
    exfalso
    have : e.refcount + 1 = 1 := hone
    omega

theorem inv_lookupOp_snd {s : CacheState} {k : Nat} (hInv : Inv s) :
    Inv (lookupOp s k).2 := by
  unfold lookupOp
  cases hf : findInCache s.entries k with
  | none =>
    have hmiss : lookup s k = (none, s) := by
      unfold lookup
      rw [hf]
    rw [hmiss]
    exact hInv
  | some i =>
    have hInv2 : Inv (lookup s k).2 := inv_lookup_snd hInv
    have hok : UnrefOk (lookup s k).2 i := lookup_hit_unrefOk hInv hf
    rw [lookup_hit_eq hf] at hInv2 hok ⊢
    exact inv_unref hInv2 hok

theorem inv_erase {s : CacheState} {k : Nat} (hInv : Inv s) : Inv (erase s k) := by
  unfold erase
  cases findInCache s.entries k with
  | none => exact hInv
  | some i => exact inv_removeFromTable hInv

theorem inv_step {s s' : CacheState} (h : Step s s') (hInv : Inv s) : Inv s' := by
  cases h with
  | ins k v c => exact inv_insertOp hInv
  | insHold k v c => exact inv_insert_snd hInv
  | look k => exact inv_lookupOp_snd hInv
  | lookHold k => exact inv_lookup_snd hInv
  | rel hd hv => exact inv_unref hInv (ownsRef_unrefOk hv)
  | era k => exact inv_erase hInv

theorem inv_reachable {cap : Nat} {s : CacheState} (h : Reachable cap s) : Inv s := by
  induction h with
  | refl => exact inv_init cap
  | tail _ hstep ih => exact inv_step hstep ih

/-! ### Key-tracking lemmas -/

/-- Entries produced by a point update keep their key, and none becomes
in-cache unless it already was: absence of a key is preserved. -/
theorem noKeyL_modify {es : List Entry} {i : Nat} {f : Entry → Entry} {k : Nat}
    (h : ∀ e ∈ es, e.in_cache = true → e.key ≠ k)
    (hk : ∀ x, (f x).key = x.key)
    (hi : ∀ x, (f x).in_cache = true → x.in_cache = true) :
    ∀ e ∈ modifyEntry es i f, e.in_cache = true → e.key ≠ k := by
  intro e he hin
  rcases mem_modifyEntry he with he' | ⟨e₀, he₀, rfl⟩
  · exact h e he' hin
  · rw [hk e₀]
    exact h e₀ he₀ (hi e₀ hin)

theorem noKey_unref {s : CacheState} {i : Nat} {k : Nat}
    (h : NoKeyInCache s k) : NoKeyInCache (unref s i) k := by
  unfold unref
  cases entryAt s.entries i with
  | none => exact h
  | some e =>
    by_cases h1 : e.refcount ≤ 1
    · simp only [h1, if_true]
      exact noKeyL_modify h (fun x => rfl) (fun x hx => Bool.noConfusion hx)
    · by_cases h2 : e.refcount = 2 ∧ e.in_cache = true <;>
        · simp only [h1, h2, if_false, if_true]
          exact noKeyL_modify h (fun x => rfl) (fun x hx => hx)

theorem noKey_removeFromTable {s : CacheState} {i : Nat} {k : Nat}
    (h : NoKeyInCache s k) : NoKeyInCache (removeFromTable s i) k := by
  unfold removeFromTable
  cases entryAt s.entries i with
  | none => exact h
  | some e =>
    by_cases hin : e.in_cache = true
    · simp only [hin, if_true]
      apply noKey_unref
      exact noKeyL_modify h (fun x => rfl) (fun x hx => Bool.noConfusion hx)
    · simp only [hin]
      exact h

theorem noKey_evictLoop (fuel : Nat) {s : CacheState} {k : Nat}
    (h : NoKeyInCache s k) : NoKeyInCache (evictLoop fuel s) k := by
  induction fuel generalizing s with
  | zero => exact h
  | succ n ih =>
    unfold evictLoop
    by_cases hle : usage s ≤ s.capacity
    · simp only [hle, if_true]
      exact h
    · simp only [hle, if_false]
      cases s.lru with
      | nil => exact h
      | cons v rest => exact ih (noKey_removeFromTable h)

/-- An entry that is in-cache after a table removal was in-cache before it,
with the same key, value, charge and liveness. -/
theorem removeFromTable_key_in_cache {s : CacheState} {i : Nat} {j : Nat} {e' : Entry}
    (h : entryAt (removeFromTable s i).entries j = some e') (hin : e'.in_cache = true) :
    ∃ e, entryAt s.entries j = some e ∧ e.in_cache = true ∧ e.key = e'.key ∧
      e.value = e'.value ∧ e.charge = e'.charge ∧ e.live = e'.live := by
  cases he : entryAt s.entries i with
  | none =>
    rw [unfold_removeFromTable_none he] at h
    exact ⟨e', h, hin, rfl, rfl, rfl, rfl⟩
  | some e =>
    by_cases hein : e.in_cache = true
    · by_cases hji : j = i
      · subst hji
        obtain ⟨e'', he'', he''in⟩ := removeFromTable_uncached_self he hein
        rw [h] at he''
        cases he''
        rw [hin] at he''in
        exact Bool.noConfusion he''in
      · rw [removeFromTable_entryAt_ne _ hji] at h
        exact ⟨e', h, hin, rfl, rfl, rfl, rfl⟩
    · rw [unfold_removeFromTable_skip he hein] at h
      exact ⟨e', h, hin, rfl, rfl, rfl, rfl⟩

theorem evictLoop_key_in_cache (fuel : Nat) {s : CacheState} {j : Nat} {e' : Entry}
    (h : entryAt (evictLoop fuel s).entries j = some e') (hin : e'.in_cache = true) :
    ∃ e, entryAt s.entries j = some e ∧ e.in_cache = true ∧ e.key = e'.key ∧
      e.value = e'.value ∧ e.charge = e'.charge ∧ e.live = e'.live := by
  induction fuel generalizing s with
  | zero => exact ⟨e', h, hin, rfl, rfl, rfl, rfl⟩
  | succ n ih =>
    unfold evictLoop at h
    by_cases hle : usage s ≤ s.capacity
    · rw [if_pos hle] at h
      exact ⟨e', h, hin, rfl, rfl, rfl, rfl⟩
    · rw [if_neg hle] at h
      cases hl : s.lru with
      | nil =>
        rw [hl] at h
        exact ⟨e', h, hin, rfl, rfl, rfl, rfl⟩
      | cons v rest =>
        rw [hl] at h
        obtain ⟨em, hem, hemin, hemk, hemv, hemc, heml⟩ := ih h
        obtain ⟨e, he, hein, hek, hev, hec, hel⟩ := removeFromTable_key_in_cache hem hemin
        exact ⟨e, he, hein, by rw [hek, hemk], by rw [hev, hemv], by rw [hec, hemc],
          by rw [hel, heml]⟩

/-- Construct a hit: the entry at `i` matches and nothing below it does. -/
theorem findInCache_eq_some_of {es : List Entry} {k : Nat} {i : Nat} {e : Entry}
    (hi : entryAt es i = some e) (hin : e.in_cache = true) (hk : e.key = k)
    (hbefore : ∀ j e', j < i → entryAt es j = some e' → e'.in_cache = true → e'.key ≠ k) :
    findInCache es k = some i := by
  induction es generalizing i with
  | nil => exact absurd hi (by simp [entryAt])
  | cons a rest ih =>
    cases i with
    | zero =>
      simp only [entryAt, Option.some.injEq] at hi
      subst hi
      simp [findInCache, hin, hk]
    | succ n =>
      simp only [entryAt] at hi
      have hhead : ¬(a.in_cache = true ∧ a.key = k) := by
        intro hcon
        exact hbefore 0 a (Nat.succ_pos n) rfl hcon.1 hcon.2
      have hrest : findInCache rest k = some n := by
        apply ih hi
        intro j e' hj hje' hjin
        exact hbefore (j + 1) e' (by omega) (by simpa [entryAt] using hje') hjin
      simp only [findInCache]
      rw [if_neg (by simpa using hhead), hrest]
      rfl

theorem lookupVal_of_miss {s : CacheState} {k : Nat}
    (hf : findInCache s.entries k = none) : lookupVal s k = none := by
  unfold lookupVal lookupOp lookup
  rw [hf]

theorem lookupVal_of_hit {s : CacheState} {k : Nat} {i : Nat} {e : Entry}
    (hf : findInCache s.entries k = some i) (he : entryAt s.entries i = some e) :
    lookupVal s k = if e.live = true then some e.value else none := by
  unfold lookupVal lookupOp
  rw [lookup_hit_eq hf]
  show value _ i = _
  unfold value
  rw [entryAt_modifyEntry_self, he]
  rfl

theorem noKeyInCache_lookupVal {s : CacheState} {k : Nat}
    (h : NoKeyInCache s k) : lookupVal s k = none := by
  apply lookupVal_of_miss
  exact findInCache_eq_none_iff.mpr h

/-! ### The freshly inserted entry is always retrievable -/

theorem insertOp_eq_toLru {s : CacheState} {k v c : Nat} (hInv : Inv s) :
    insertOp s k v c =
      { (insert s k v c).2 with
        entries := modifyEntry (insert s k v c).2.entries (insert s k v c).1
          (fun e => { e with refcount := e.refcount - 1 }),
        lru := (insert s k v c).2.lru ++ [(insert s k v c).1] } := by
  have hnew := insert_snd_entryAt_new (k := k) (v := v) (c := c) hInv
  show unref (insert s k v c).2 (insert s k v c).1 = _
  rw [unref_eq_toLru hnew rfl rfl]

theorem insertOp_entryAt_new {s : CacheState} {k v c : Nat} (hInv : Inv s) :
    entryAt (insertOp s k v c).entries (insert s k v c).1
      = some (Entry.mk k v c 1 true true) := by
  rw [insertOp_eq_toLru hInv]
  show entryAt (modifyEntry (insert s k v c).2.entries (insert s k v c).1 _)
    (insert s k v c).1 = _
  rw [entryAt_modifyEntry_self, insert_snd_entryAt_new hInv]
  rfl

theorem insertOp_before_new {s : CacheState} {k v c : Nat} (hInv : Inv s) :
    ∀ j e', j < (insert s k v c).1 →
      entryAt (insertOp s k v c).entries j = some e' →
      e'.in_cache = true → e'.key ≠ k := by
  intro j e' hj hje hjin
  rw [insertOp_eq_toLru hInv] at hje
  have hjn : j ≠ (insert s k v c).1 := by omega
  rw [show ({ (insert s k v c).2 with
        entries := modifyEntry (insert s k v c).2.entries (insert s k v c).1
          (fun e => { e with refcount := e.refcount - 1 }),
        lru := (insert s k v c).2.lru ++ [(insert s k v c).1] } : CacheState).entries
      = modifyEntry (insert s k v c).2.entries (insert s k v c).1
          (fun e => { e with refcount := e.refcount - 1 }) from rfl,
    entryAt_modifyEntry_ne hjn] at hje
  have hje' : entryAt (evictLoop (removeOld s k).lru.length
      (publish (removeOld s k) k v c)).entries j = some e' := hje
  obtain ⟨e, he, hein, hek, _, _, _⟩ := evictLoop_key_in_cache _ hje' hjin
  have hjlt : j < (removeOld s k).entries.length := hj
  rw [show (publish (removeOld s k) k v c).entries
      = (removeOld s k).entries ++ [Entry.mk k v c 2 true true] from rfl,
    entryAt_append_lt hjlt] at he
  intro hcon
  exact noKey_removeOld hInv e (entryAt_mem he) hein (by rw [hek, hcon])

/-- Inserting then looking the same key up (no other operation in between)
always yields the just-inserted value: the eviction pass never victimizes
the entry being published, because that entry is pinned by the insert's
own handle and hence off the LRU list during eviction. -/
theorem insertOp_lookupVal {s : CacheState} {k v c : Nat} (hInv : Inv s) :
    lookupVal (insertOp s k v c) k = some v := by
  have hAtN := insertOp_entryAt_new (k := k) (v := v) (c := c) hInv
  have hfind : findInCache (insertOp s k v c).entries k = some (insert s k v c).1 :=
    findInCache_eq_some_of hAtN rfl rfl (insertOp_before_new hInv)
  rw [lookupVal_of_hit hfind hAtN]
  rfl

/-! ### Absence of a key across whole operations -/

theorem noKey_removeOld_other {s : CacheState} {k k' : Nat}
    (h : NoKeyInCache s k) : NoKeyInCache (removeOld s k') k := by
  unfold removeOld
  cases findInCache s.entries k' with
  | none => exact h
  | some j => exact noKey_removeFromTable h

theorem noKey_insertOp {s : CacheState} {k k' v c : Nat} (hne : k' ≠ k)
    (h : NoKeyInCache s k) : NoKeyInCache (insertOp s k' v c) k := by
  unfold insertOp
  apply noKey_unref
  show NoKeyInCache (evictLoop (removeOld s k').lru.length
    (publish (removeOld s k') k' v c)) k
  apply noKey_evictLoop
  intro e he hin
  have hmem : e ∈ (removeOld s k').entries ++ [Entry.mk k' v c 2 true true] := he
  rcases List.mem_append.mp hmem with hold | hnew
  · exact noKey_removeOld_other h e hold hin
  · simp only [List.mem_singleton] at hnew
    subst hnew
    exact hne

theorem noKey_lookupOp {s : CacheState} {k k' : Nat}
    (h : NoKeyInCache s k) : NoKeyInCache (lookupOp s k').2 k := by
  unfold lookupOp
  cases hf : findInCache s.entries k' with
  | none =>
    have hmiss : lookup s k' = (none, s) := by
      unfold lookup
      rw [hf]
    rw [hmiss]
    exact h
  | some i =>
    rw [lookup_hit_eq hf]
    show NoKeyInCache (unref _ i) k
    apply noKey_unref
    exact noKeyL_modify h (fun x => rfl) (fun x hx => hx)

theorem noKey_erase_other {s : CacheState} {k k' : Nat}
    (h : NoKeyInCache s k) : NoKeyInCache (erase s k') k := by
  unfold erase
  cases findInCache s.entries k' with
  | none => exact h
  | some i => exact noKey_removeFromTable h

theorem noKey_runOps {s : CacheState} {k : Nat} {ops : List Op}
    (h : NoKeyInCache s k) (hops : ∀ o ∈ ops, insertsKey o k = false) :
    NoKeyInCache (runOps s ops) k := by
  induction ops generalizing s with
  | nil => exact h
  | cons o rest ih =>
    show NoKeyInCache (runOps (runOp s o) rest) k
    apply ih
    · cases o with
      | ins k' v c =>
        have hne : k' ≠ k := by
          have := hops _ (List.mem_cons_self _ _)
          simpa [insertsKey] using this
        exact noKey_insertOp hne h
      | look k' => exact noKey_lookupOp h
      | era k' => exact noKey_erase_other h
    · exact fun o' ho' => hops o' (List.mem_cons_of_mem _ ho')

theorem noKey_init (cap : Nat) (k : Nat) : NoKeyInCache (initCache cap) k := by
  intro e he
  simp [initCache] at he

/-! ### usage versus the LRU list when nothing is pinned -/

theorem inCacheWeight_eq_range_sum (es : List Entry) :
    inCacheWeight es = ((List.range es.length).map (entryWeight es)).sum := by
  induction es with
  | nil => rfl
  | cons a rest ih =>
    show (if a.in_cache then a.charge else 0) + inCacheWeight rest = _
    rw [show (a :: rest).length = rest.length + 1 from rfl,
      List.range_succ_eq_map, List.map_cons, List.sum_cons, List.map_map]
    have hshift : (List.range rest.length).map (entryWeight (a :: rest) ∘ Nat.succ)
        = (List.range rest.length).map (entryWeight rest) :=
      List.map_congr_left (fun j _ => rfl)
    rw [hshift, ← ih]
    rfl

theorem map_sum_filter_weight (es : List Entry) (l : List Nat)
    (h : ∀ j ∈ l, inCacheAt es j = false → entryWeight es j = 0) :
    (l.map (entryWeight es)).sum = ((l.filter (inCacheAt es)).map (entryWeight es)).sum := by
  induction l with
  | nil => rfl
  | cons a rest ih =>
    have ihr := ih (fun j hj => h j (List.mem_cons_of_mem _ hj))
    cases hpa : inCacheAt es a with
    | true => simp [List.filter_cons, hpa, ihr]
    | false =>
      have hz := h a (List.mem_cons_self _ _) hpa
      simp [List.filter_cons, hpa, ihr, hz]

theorem entryWeight_zero_of_uncached {es : List Entry} {j : Nat}
    (h : inCacheAt es j = false) : entryWeight es j = 0 := by
  unfold inCacheAt at h
  unfold entryWeight
  cases he : entryAt es j with
  | none => rfl
  | some e =>
    rw [he] at h
    have h' : e.in_cache = false := h
    simp [h']

theorem usage_eq_lruWeight {s : CacheState} (hInv : Inv s) (hall : AllTableOnly s) :
    usage s = lruWeight s := by
  obtain ⟨hlru, hent, _, _⟩ := hInv
  have hperm : ((List.range s.entries.length).filter (inCacheAt s.entries)).Perm s.lru := by
    refine (List.perm_ext_iff_of_nodup ((List.nodup_range _).filter _) hlru.1).mpr ?_
    intro j
    rw [List.mem_filter, List.mem_range]
    constructor
    · rintro ⟨hjlt, hjin⟩
      unfold inCacheAt at hjin
      cases he : entryAt s.entries j with
      | none => rw [he] at hjin; exact Bool.noConfusion hjin
      | some e =>
        rw [he] at hjin
        have hlive : e.live = true := (hent j e he).1 hjin
        exact hlru.2.2 j e he hjin (hall j e he hlive)
    · intro hj
      obtain ⟨e, he, hein, _⟩ := hlru.2.1 j hj
      refine ⟨entryAt_lt_length he, ?_⟩
      unfold inCacheAt
      rw [he]
      exact hein
  have hlw : lruWeight s = (s.lru.map (entryWeight s.entries)).sum := by
    unfold lruWeight
    congr 1
    apply List.map_congr_left
    intro j hj
    obtain ⟨e, he, hein, _⟩ := hlru.2.1 j hj
    unfold chargeAt entryWeight
    rw [he]
    show e.charge = if e.in_cache = true then e.charge else 0
    rw [if_pos hein]
  rw [hlw, ← (hperm.map (entryWeight s.entries)).sum_eq]
  rw [show usage s = inCacheWeight s.entries from rfl, inCacheWeight_eq_range_sum]
  exact map_sum_filter_weight s.entries (List.range s.entries.length)
    (fun j _ hj => entryWeight_zero_of_uncached hj)

/-! ### The eviction loop drives usage back under capacity -/

theorem evict_head_step {s : CacheState} {v : Nat} {rest : List Nat}
    (hInv : Inv s) (hl : s.lru = v :: rest) :
    (removeFromTable s v).lru = rest ∧
    ∃ cv, usage s = usage (removeFromTable s v) + cv ∧
      lruWeight s = lruWeight (removeFromTable s v) + cv := by
  obtain ⟨ev, hev, hevin, hevrc⟩ := hInv.1.2.1 v (by rw [hl]; exact List.mem_cons_self _ _)
  have hvrest : v ∉ rest := by
    have hnd := hInv.1.1
    rw [hl] at hnd
    exact (List.nodup_cons.mp hnd).1
  have hfilter : s.lru.filter (fun j => j ≠ v) = rest := by
    rw [hl, List.filter_cons]
    have h1 : (decide (v ≠ v)) = false := by simp
    simp only [h1, Bool.false_eq_true, if_false]
    exact List.filter_eq_self.mpr (fun a ha => by
      simp only [decide_eq_true_eq]
      exact fun hav => hvrest (hav ▸ ha))
  have hrm : removeFromTable s v = unref
      { s with
        entries := modifyEntry s.entries v (fun e => { e with in_cache := false }),
        lru := s.lru.filter (fun j => j ≠ v) } v := by
    unfold removeFromTable
    rw [hev]
    simp [hevin]
  have htA : entryAt (modifyEntry s.entries v (fun e => { e with in_cache := false })) v
      = some { ev with in_cache := false } := by
    rw [entryAt_modifyEntry_self, hev]
    rfl
  have hrc1 : ({ ev with in_cache := false } : Entry).refcount ≤ 1 := by
    show ev.refcount ≤ 1
    omega
  rw [hrm, unref_eq_teardown htA hrc1]
  refine ⟨hfilter, ev.charge, ?_, ?_⟩
  · -- usage drops by exactly the victim's charge
    show usage s = inCacheWeight (modifyEntry
      (modifyEntry s.entries v (fun e => { e with in_cache := false })) v _) + ev.charge
    have hkeep : inCacheWeight (modifyEntry
        (modifyEntry s.entries v (fun e => { e with in_cache := false })) v
        (fun e => { e with refcount := 0, in_cache := false, live := false }))
        = inCacheWeight (modifyEntry s.entries v (fun e => { e with in_cache := false })) :=
      inCacheWeight_modify_keep htA rfl rfl
    have hoff := inCacheWeight_modify_off (f := fun e => { e with in_cache := false })
      hev hevin rfl
    rw [hkeep]
    unfold usage
    omega
  · -- the LRU weight drops by the same amount
    have h1 : lruWeight s = ev.charge + (rest.map (chargeAt s.entries)).sum := by
      unfold lruWeight
      rw [hl, List.map_cons, List.sum_cons]
      congr 1
      unfold chargeAt
      rw [hev]
    have hrestmap : (rest.map (chargeAt (modifyEntry
        (modifyEntry s.entries v (fun e => { e with in_cache := false })) v
        (fun e => { e with refcount := 0, in_cache := false, live := false })))).sum
        = (rest.map (chargeAt s.entries)).sum := by
      congr 1
      apply List.map_congr_left
      intro j hj
      have hjv : j ≠ v := fun hc => hvrest (hc ▸ hj)
      unfold chargeAt
      rw [entryAt_modifyEntry_ne hjv, entryAt_modifyEntry_ne hjv]
    show lruWeight s = ((s.lru.filter (fun j => j ≠ v)).map (chargeAt (modifyEntry
        (modifyEntry s.entries v (fun e => { e with in_cache := false })) v
        (fun e => { e with refcount := 0, in_cache := false, live := false })))).sum
      + ev.charge
    rw [hfilter, hrestmap, h1]
    omega

theorem evictLoop_usage_le (fuel : Nat) {s : CacheState}
    (hInv : Inv s) (hfuel : s.lru.length ≤ fuel)
    (hoff : usage s ≤ lruWeight s + s.capacity) :
    usage (evictLoop fuel s) ≤ s.capacity := by
  induction fuel generalizing s with
  | zero =>
    have hl : s.lru = [] := List.length_eq_zero.mp (Nat.le_zero.mp hfuel)
    have hz : lruWeight s = 0 := by
      unfold lruWeight
      rw [hl]
      rfl
    show usage s ≤ s.capacity
    omega
  | succ n ih =>
    unfold evictLoop
    by_cases hle : usage s ≤ s.capacity
    · simp only [hle, if_true]
    · simp only [hle, if_false]
      cases hl : s.lru with
      | nil =>
        exfalso
        have hz : lruWeight s = 0 := by
          unfold lruWeight
          rw [hl]
          rfl
        omega
      | cons v rest =>
        obtain ⟨hlru', cv, hus, hlw⟩ := evict_head_step hInv hl
        have hcap : (removeFromTable s v).capacity = s.capacity := removeFromTable_capacity s v
        have hres := ih (inv_removeFromTable hInv)
          (by
            rw [hlru']
            have : (v :: rest).length ≤ n + 1 := hl ▸ hfuel
            simpa using this)
          (by
            rw [hcap]
            omega)
        rw [hcap] at hres
        exact hres

/-! ### Insert-only traces keep usage under capacity -/

theorem allTableOnly_unref {s : CacheState} {i : Nat}
    (h : AllTableOnly s) : AllTableOnly (unref s i) := by
  unfold unref
  cases he : entryAt s.entries i with
  | none => exact h
  | some e =>
    by_cases h1 : e.refcount ≤ 1
    · simp only [h1, if_true]
      intro j e' hj hlive
      obtain ⟨e₀, he₀, hce⟩ := entryAt_modifyEntry_cases hj
      rcases hce with ⟨hji, hee⟩ | ⟨hji, hee⟩
      · rw [hee]
        exact h j e₀ he₀ (hee ▸ hlive)
      · rw [hee] at hlive
        exact absurd hlive (by simp)
    · have hcore : AllTableOnly { s with
          entries := modifyEntry s.entries i (fun e => Entry.mk e.key e.value e.charge (e.refcount - 1) e.in_cache e.live) } := by
        intro j e' hj hlive
        obtain ⟨e₀, he₀, hce⟩ := entryAt_modifyEntry_cases hj
        rcases hce with ⟨hji, hee⟩ | ⟨hji, hee⟩
        · rw [hee]
          exact h j e₀ he₀ (hee ▸ hlive)
        · subst hji
          rw [he] at he₀
          cases he₀
          have hel : e.live = true := by
            rw [hee] at hlive
            exact hlive
          have hrc := h j e he hel
          exact absurd hrc (by omega)
      by_cases h2 : e.refcount = 2 ∧ e.in_cache = true
      · simp only [h1, h2, if_false, if_true]
        exact fun j e' hj hlive => hcore j e' hj hlive
      · simp only [h1, h2, if_false]
        exact fun j e' hj hlive => hcore j e' hj hlive

theorem allButNew_unref {s : CacheState} {i n : Nat}
    (h : AllButNew s n) (hin : i ≠ n) : AllButNew (unref s i) n := by
  unfold unref
  cases he : entryAt s.entries i with
  | none => exact h
  | some e =>
    by_cases h1 : e.refcount ≤ 1
    · simp only [h1, if_true]
      intro j e' hj hlive hjn
      obtain ⟨e₀, he₀, hce⟩ := entryAt_modifyEntry_cases hj
      rcases hce with ⟨hji, hee⟩ | ⟨hji, hee⟩
      · rw [hee]
        exact h j e₀ he₀ (hee ▸ hlive) hjn
      · rw [hee] at hlive
        exact absurd hlive (by simp)
    · have hcore : AllButNew { s with
          entries := modifyEntry s.entries i (fun e => Entry.mk e.key e.value e.charge (e.refcount - 1) e.in_cache e.live) } n := by
        intro j e' hj hlive hjn
        obtain ⟨e₀, he₀, hce⟩ := entryAt_modifyEntry_cases hj
        rcases hce with ⟨hji, hee⟩ | ⟨hji, hee⟩
        · rw [hee]
          exact h j e₀ he₀ (hee ▸ hlive) hjn
        · subst hji
          rw [he] at he₀
          cases he₀
          have hel : e.live = true := by
            rw [hee] at hlive
            exact hlive
          have hrc := h j e he hel hin
          exact absurd hrc (by omega)
      by_cases h2 : e.refcount = 2 ∧ e.in_cache = true
      · simp only [h1, h2, if_false, if_true]
        exact fun j e' hj hlive hjn => hcore j e' hj hlive hjn
      · simp only [h1, h2, if_false]
        exact fun j e' hj hlive hjn => hcore j e' hj hlive hjn

theorem allTableOnly_removeFromTable {s : CacheState} {i : Nat}
    (h : AllTableOnly s) : AllTableOnly (removeFromTable s i) := by
  unfold removeFromTable
  cases he : entryAt s.entries i with
  | none => exact h
  | some e =>
    by_cases hin : e.in_cache = true
    · simp only [hin, if_true]
      apply allTableOnly_unref
      intro j e' hj hlive
      obtain ⟨e₀, he₀, hce⟩ := entryAt_modifyEntry_cases hj
      rcases hce with ⟨hji, hee⟩ | ⟨hji, hee⟩
      · rw [hee]
        exact h j e₀ he₀ (hee ▸ hlive)
      · subst hji
        rw [hee]
        show e₀.refcount = 1
        exact h j e₀ he₀ (by rw [hee] at hlive; exact hlive)
    · simp only [hin]
      exact h

theorem allButNew_removeFromTable {s : CacheState} {i n : Nat}
    (h : AllButNew s n) (hin : i ≠ n) : AllButNew (removeFromTable s i) n := by
  unfold removeFromTable
  cases he : entryAt s.entries i with
  | none => exact h
  | some e =>
    by_cases hein : e.in_cache = true
    · simp only [hein, if_true]
      apply allButNew_unref _ hin
      intro j e' hj hlive hjn
      obtain ⟨e₀, he₀, hce⟩ := entryAt_modifyEntry_cases hj
      rcases hce with ⟨hji, hee⟩ | ⟨hji, hee⟩
      · rw [hee]
        exact h j e₀ he₀ (hee ▸ hlive) hjn
      · subst hji
        rw [hee]
        show e₀.refcount = 1
        exact h j e₀ he₀ (by rw [hee] at hlive; exact hlive) hjn
    · simp only [hein]
      exact h

theorem allButNew_evictLoop (fuel : Nat) {s : CacheState} {n : Nat}
    (h : AllButNew s n) (hn : n ∉ s.lru) : AllButNew (evictLoop fuel s) n := by
  induction fuel generalizing s with
  | zero => exact h
  | succ m ih =>
    unfold evictLoop
    by_cases hle : usage s ≤ s.capacity
    · simp only [hle, if_true]
      exact h
    · simp only [hle, if_false]
      cases hl : s.lru with
      | nil => exact h
      | cons v rest =>
        have hvn : v ≠ n := by
          rintro rfl
          exact hn (by rw [hl]; exact List.mem_cons_self _ _)
        refine ih (allButNew_removeFromTable h hvn) ?_
        intro hmem
        exact hn (removeFromTable_lru_sub s v hmem)

theorem allTableOnly_removeOld {s : CacheState} {k : Nat}
    (h : AllTableOnly s) : AllTableOnly (removeOld s k) := by
  unfold removeOld
  cases findInCache s.entries k with
  | none => exact h
  | some j => exact allTableOnly_removeFromTable h

theorem allButNew_publish {s : CacheState} {k v c : Nat}
    (h : AllTableOnly s) : AllButNew (publish s k v c) s.entries.length := by
  intro j e' hj hlive hjn
  have hj' : entryAt (s.entries ++ [Entry.mk k v c 2 true true]) j = some e' := hj
  rcases entryAt_append_cases hj' with ⟨hlt, hje⟩ | ⟨hjeq, _⟩
  · exact h j e' hje hlive
  · exact absurd hjeq hjn

theorem allTableOnly_insertOp {s : CacheState} {k v c : Nat} (hInv : Inv s)
    (h : AllTableOnly s) : AllTableOnly (insertOp s k v c) := by
  have h1 : AllTableOnly (removeOld s k) := allTableOnly_removeOld h
  have h2 : AllButNew (publish (removeOld s k) k v c) (removeOld s k).entries.length :=
    allButNew_publish h1
  have hInv1 : Inv (removeOld s k) := inv_removeOld hInv
  have hn : (removeOld s k).entries.length ∉ (publish (removeOld s k) k v c).lru := by
    rw [publish_lru]
    intro hmem
    exact absurd (lru_mem_lt hInv1.1 hmem) (by omega)
  have h3 : AllButNew (evictLoop (removeOld s k).lru.length
      (publish (removeOld s k) k v c)) (removeOld s k).entries.length :=
    allButNew_evictLoop _ h2 hn
  rw [insertOp_eq_toLru hInv]
  intro j e' hj hlive
  obtain ⟨e₀, he₀, hce⟩ := entryAt_modifyEntry_cases hj
  rcases hce with ⟨hji, hee⟩ | ⟨hji, hee⟩
  · rw [hee]
    exact h3 j e₀ he₀ (hee ▸ hlive) hji
  · subst hji
    have hnew : entryAt (insert s k v c).2.entries (insert s k v c).1
        = some (Entry.mk k v c 2 true true) := insert_snd_entryAt_new hInv
    rw [hnew] at he₀
    cases he₀
    rw [hee]
    rfl

theorem removeOld_capacity (s : CacheState) (k : Nat) :
    (removeOld s k).capacity = s.capacity := by
  unfold removeOld
  cases findInCache s.entries k with
  | none => rfl
  | some j => exact removeFromTable_capacity s j

theorem insert_snd_capacity (s : CacheState) (k v c : Nat) :
    (insert s k v c).2.capacity = s.capacity := by
  show (evictLoop _ (publish (removeOld s k) k v c)).capacity = s.capacity
  rw [evictLoop_capacity]
  show (removeOld s k).capacity = s.capacity
  exact removeOld_capacity s k

theorem insertOp_capacity (s : CacheState) (k v c : Nat) :
    (insertOp s k v c).capacity = s.capacity := by
  unfold insertOp
  rw [unref_capacity]
  exact insert_snd_capacity s k v c

theorem publish_usage (s : CacheState) (k v c : Nat) :
    usage (publish s k v c) = usage s + c := by
  show inCacheWeight (s.entries ++ [Entry.mk k v c 2 true true]) = inCacheWeight s.entries + c
  rw [inCacheWeight_append]
  rfl

theorem publish_lruWeight {s : CacheState} (hlru : LruWF s) (k v c : Nat) :
    lruWeight (publish s k v c) = lruWeight s := by
  unfold lruWeight
  show (s.lru.map (chargeAt (s.entries ++ [Entry.mk k v c 2 true true]))).sum = _
  congr 1
  apply List.map_congr_left
  intro j hj
  unfold chargeAt
  rw [entryAt_append_lt (lru_mem_lt hlru hj)]

theorem usage_insertOp_le {s : CacheState} {k v c : Nat} (hInv : Inv s)
    (hall : AllTableOnly s) (hc : c ≤ s.capacity) :
    usage (insertOp s k v c) ≤ s.capacity := by
  have hInv1 : Inv (removeOld s k) := inv_removeOld hInv
  have hall1 : AllTableOnly (removeOld s k) := allTableOnly_removeOld hall
  have hcap1 : (removeOld s k).capacity = s.capacity := removeOld_capacity s k
  have heq1 : usage (removeOld s k) = lruWeight (removeOld s k) :=
    usage_eq_lruWeight hInv1 hall1
  have hup : usage (publish (removeOld s k) k v c) = usage (removeOld s k) + c :=
    publish_usage _ k v c
  have hlp : lruWeight (publish (removeOld s k) k v c) = lruWeight (removeOld s k) :=
    publish_lruWeight hInv1.1 k v c
  have hcapp : (publish (removeOld s k) k v c).capacity = s.capacity := hcap1
  have hInvp : Inv (publish (removeOld s k) k v c) :=
    inv_publish hInv1 (noKey_removeOld hInv)
  have hoffp : usage (publish (removeOld s k) k v c)
      ≤ lruWeight (publish (removeOld s k) k v c)
        + (publish (removeOld s k) k v c).capacity := by
    rw [hup, hlp, hcapp, heq1]
    omega
  have hT : usage (evictLoop (removeOld s k).lru.length
      (publish (removeOld s k) k v c)) ≤ s.capacity := by
    have := evictLoop_usage_le (removeOld s k).lru.length hInvp
      (by rw [publish_lru]) hoffp
    rw [hcapp] at this
    exact this
  have husame : usage (insertOp s k v c)
      = usage (evictLoop (removeOld s k).lru.length (publish (removeOld s k) k v c)) := by
    rw [insertOp_eq_toLru hInv]
    show inCacheWeight (modifyEntry (insert s k v c).2.entries (insert s k v c).1 _)
      = usage (insert s k v c).2
    exact inCacheWeight_modify_keep (insert_snd_entryAt_new hInv) rfl rfl
  rw [husame]
  exact hT

theorem allTableOnly_init (cap : Nat) : AllTableOnly (initCache cap) := by
  intro i e he
  simp [initCache, entryAt] at he

theorem insertTrace_aux {cap : Nat} {ops : List Op} :
    ∀ {s : CacheState}, Inv s → AllTableOnly s → s.capacity = cap → usage s ≤ cap →
    (∀ o ∈ ops, ∃ k v c, o = Op.ins k v c ∧ c ≤ cap) →
    Inv (runOps s ops) ∧ AllTableOnly (runOps s ops) ∧
      (runOps s ops).capacity = cap ∧ usage (runOps s ops) ≤ cap := by
  induction ops with
  | nil => exact fun hInv hall hcap hus _ => ⟨hInv, hall, hcap, hus⟩
  | cons o rest ih =>
    intro s hInv hall hcap hus hops
    obtain ⟨k, v, c, rfl, hc⟩ := hops o (List.mem_cons_self _ _)
    show Inv (runOps (insertOp s k v c) rest) ∧ _
    refine ih (inv_insertOp hInv) (allTableOnly_insertOp hInv hall) ?_ ?_
      (fun o' ho' => hops o' (List.mem_cons_of_mem _ ho'))
    · rw [insertOp_capacity]
      exact hcap
    · have hle := usage_insertOp_le (k := k) (v := v) (c := c) hInv hall
        (le_trans hc (le_of_eq hcap.symm))
      omega

/-! ### Lookup frame facts and erase no-ops -/

theorem lookup_fst (s : CacheState) (k : Nat) :
    (lookup s k).1 = findInCache s.entries k := by
  unfold lookup
  cases findInCache s.entries k <;> rfl

theorem modifyEntry_cancel {es : List Entry} {i : Nat} {f g : Entry → Entry}
    (h : ∀ x, g (f x) = x) : modifyEntry (modifyEntry es i f) i g = es := by
  induction es generalizing i with
  | nil => rfl
  | cons a rest ih =>
    cases i with
    | zero =>
      show g (f a) :: rest = a :: rest
      rw [h a]
    | succ n =>
      show a :: modifyEntry (modifyEntry rest n f) n g = a :: rest
      rw [ih]

theorem lookupVal_entries_congr {s1 s2 : CacheState} (h : s1.entries = s2.entries)
    (k : Nat) : lookupVal s1 k = lookupVal s2 k := by
  unfold lookupVal lookupOp lookup value
  rw [h]
  cases findInCache s2.entries k <;> rfl

theorem lookupOp_entries {s : CacheState} {k : Nat} (hInv : Inv s) :
    ((lookupOp s k).2).entries = s.entries := by
  cases hf : findInCache s.entries k with
  | none =>
    have hmiss : lookup s k = (none, s) := by
      unfold lookup
      rw [hf]
    unfold lookupOp
    rw [hmiss]
  | some i =>
    obtain ⟨e, he, hein, hek⟩ := findInCache_some_spec hf
    have hlive : e.live = true := (hInv.2.1 i e he).1 hein
    have hrc : 1 ≤ e.refcount := (hInv.2.1 i e he).2.1 hlive
    unfold lookupOp
    rw [lookup_hit_eq hf]
    show (unref { s with
      entries := modifyEntry s.entries i
        (fun e => { e with refcount := e.refcount + 1 }),
      lru := s.lru.filter (fun j => j ≠ i) } i).entries = s.entries
    have hti : entryAt (modifyEntry s.entries i
        (fun e => { e with refcount := e.refcount + 1 })) i
        = some { e with refcount := e.refcount + 1 } := by
      rw [entryAt_modifyEntry_self, he]
      rfl
    have hcancel : modifyEntry (modifyEntry s.entries i
        (fun e => { e with refcount := e.refcount + 1 })) i
        (fun e => { e with refcount := e.refcount - 1 }) = s.entries :=
      modifyEntry_cancel (fun x => by cases x; simp)
    have hnot1 : ¬ ({ e with refcount := e.refcount + 1 } : Entry).refcount ≤ 1 := by
      show ¬ e.refcount + 1 ≤ 1
      omega
    by_cases h2 : ({ e with refcount := e.refcount + 1 } : Entry).refcount = 2 ∧
        ({ e with refcount := e.refcount + 1 } : Entry).in_cache = true
    · rw [unref_eq_toLru hti h2.1 h2.2]
      exact hcancel
    · rw [unref_eq_dec hti (by omega) h2]
      exact hcancel

theorem lookupOp_no_interference {s : CacheState} {k k' : Nat} (hInv : Inv s) :
    lookupVal ((lookupOp s k).2) k' = lookupVal s k' :=
  lookupVal_entries_congr (lookupOp_entries hInv) k'

theorem erase_absent {s : CacheState} {k : Nat} (h : NoKeyInCache s k) :
    erase s k = s := by
  unfold erase
  rw [findInCache_eq_none_iff.mpr h]

theorem noKey_erase_self {s : CacheState} {k : Nat} (hInv : Inv s) :
    NoKeyInCache (erase s k) k := by
  unfold erase
  cases hf : findInCache s.entries k with
  | none =>
    intro e he hin
    exact findInCache_eq_none_iff.mp hf e he hin
  | some i => exact noKey_after_remove hInv hf

theorem lookup_promotes {s : CacheState} {k i : Nat} {e : Entry}
    (he : entryAt s.entries i = some e) (hein : e.in_cache = true)
    (herc : e.refcount = 1) (helive : e.live = true)
    (hf : findInCache s.entries k = some i) :
    ((lookupOp s k).2).lru = s.lru.filter (fun j => j ≠ i) ++ [i] ∧
    (lookupOp s k).1 = some e.value := by
  unfold lookupOp
  rw [lookup_hit_eq hf]
  have hti : entryAt (modifyEntry s.entries i
      (fun e => { e with refcount := e.refcount + 1 })) i
      = some { e with refcount := e.refcount + 1 } := by
    rw [entryAt_modifyEntry_self, he]
    rfl
  constructor
  · show (unref _ i).lru = _
    rw [unref_eq_toLru hti (by show e.refcount + 1 = 2; omega) (by simpa using hein)]
  · show value _ i = some e.value
    unfold value
    rw [hti]
    show (if e.live = true then some e.value else none) = some e.value
    rw [if_pos helive]

theorem evict_takes_oldest {fuel : Nat} {s : CacheState} {v : Nat} {rest : List Nat}
    (hover : ¬ usage s ≤ s.capacity) (hl : s.lru = v :: rest) :
    evictLoop (fuel + 1) s = evictLoop fuel (removeFromTable s v) := by
  rw [show evictLoop (fuel + 1) s
      = if usage s ≤ s.capacity then s
        else match s.lru with
          | [] => s
          | v :: _ => evictLoop fuel (removeFromTable s v) from rfl,
    if_neg hover, hl]


/-! ### A published key stays readable until overwritten, erased or evicted -/

theorem usage_unref_eq {s : CacheState} {i : Nat} {e : Entry}
    (he : entryAt s.entries i = some e) (hin : e.in_cache = false) :
    usage (unref s i) = usage s := by
  unfold unref
  rw [he]
  by_cases h1 : e.refcount ≤ 1
  · simp only [h1, if_true]
    exact inCacheWeight_modify_keep he (by rw [hin]) rfl
  · by_cases h2 : e.refcount = 2 ∧ e.in_cache = true
    · simp only [h1, h2, if_false, if_true]
      exact inCacheWeight_modify_keep he rfl rfl
    · simp only [h1, h2, if_false]
      exact inCacheWeight_modify_keep he rfl rfl

theorem usage_removeFromTable_le (s : CacheState) (i : Nat) :
    usage (removeFromTable s i) ≤ usage s := by
  cases he : entryAt s.entries i with
  | none => rw [unfold_removeFromTable_none he]
  | some e =>
    by_cases hin : e.in_cache = true
    · unfold removeFromTable
      rw [he]
      simp only [hin, if_true]
      have ht : entryAt (modifyEntry s.entries i
          (fun e => { e with in_cache := false })) i
          = some { e with in_cache := false } := by
        rw [entryAt_modifyEntry_self, he]
        rfl
      rw [usage_unref_eq ht rfl]
      show inCacheWeight (modifyEntry s.entries i
        (fun e => { e with in_cache := false })) ≤ inCacheWeight s.entries
      have hoff := inCacheWeight_modify_off
        (f := fun e => { e with in_cache := false }) he hin rfl
      omega
    · rw [unfold_removeFromTable_skip he hin]

theorem evictLoop_noop {fuel : Nat} {s : CacheState}
    (h : usage s ≤ s.capacity) : evictLoop fuel s = s := by
  cases fuel with
  | zero => rfl
  | succ n =>
    unfold evictLoop
    rw [if_pos h]

theorem keyMapsTo_lookupVal {s : CacheState} {k v : Nat} (hInv : Inv s)
    (h : KeyMapsTo s k v) : lookupVal s k = some v := by
  obtain ⟨i, e, he, hein, hek, hev⟩ := h
  have hlive : e.live = true := (hInv.2.1 i e he).1 hein
  cases hf : findInCache s.entries k with
  | none => exact absurd hek (findInCache_eq_none_iff.mp hf e (entryAt_mem he) hein)
  | some j =>
    obtain ⟨f, hfj, hfin, hfk⟩ := findInCache_some_spec hf
    have hij : j = i := hInv.2.2.1 j i f e hfj he hfin hein (by rw [hfk, hek])
    subst hij
    rw [hfj] at he
    cases he
    rw [lookupVal_of_hit hf hfj, if_pos hlive, hev]

theorem keyMapsTo_insert_self {s : CacheState} {k v c : Nat} (hInv : Inv s) :
    KeyMapsTo (insertOp s k v c) k v :=
  ⟨(insert s k v c).1, Entry.mk k v c 1 true true,
    insertOp_entryAt_new hInv, rfl, rfl, rfl⟩

theorem keyMapsTo_lookupOp {s : CacheState} {k v k' : Nat} (hInv : Inv s)
    (h : KeyMapsTo s k v) : KeyMapsTo ((lookupOp s k').2) k v := by
  obtain ⟨i, e, he, hein, hek, hev⟩ := h
  exact ⟨i, e, by rw [lookupOp_entries hInv]; exact he, hein, hek, hev⟩

theorem keyMapsTo_erase {s : CacheState} {k v k' : Nat} (hne : k' ≠ k)
    (h : KeyMapsTo s k v) : KeyMapsTo (erase s k') k v := by
  obtain ⟨i, e, he, hein, hek, hev⟩ := h
  unfold erase
  cases hf : findInCache s.entries k' with
  | none => exact ⟨i, e, he, hein, hek, hev⟩
  | some j =>
    obtain ⟨f, hfj, hfin, hfk⟩ := findInCache_some_spec hf
    have hij : i ≠ j := by
      rintro rfl
      rw [he] at hfj
      cases hfj
      exact hne (by rw [← hfk, hek])
    exact ⟨i, e, by rw [removeFromTable_entryAt_ne _ hij]; exact he, hein, hek, hev⟩

theorem keyMapsTo_insertOp {s : CacheState} {k v k' v' c : Nat}
    (hne : k' ≠ k) (hcap : usage s + c ≤ s.capacity)
    (h : KeyMapsTo s k v) : KeyMapsTo (insertOp s k' v' c) k v := by
  obtain ⟨i, e, he, hein, hek, hev⟩ := h
  have h1 : entryAt (removeOld s k').entries i = some e := by
    unfold removeOld
    cases hf : findInCache s.entries k' with
    | none => exact he
    | some j =>
      obtain ⟨f, hfj, hfin, hfk⟩ := findInCache_some_spec hf
      have hij : i ≠ j := by
        rintro rfl
        rw [he] at hfj
        cases hfj
        exact hne (by rw [← hfk, hek])
      rw [removeFromTable_entryAt_ne _ hij]
      exact he
  have hilt : i < (removeOld s k').entries.length := entryAt_lt_length h1
  have h2 : entryAt (publish (removeOld s k') k' v' c).entries i = some e := by
    show entryAt ((removeOld s k').entries ++ [Entry.mk k' v' c 2 true true]) i = some e
    rw [entryAt_append_lt hilt]
    exact h1
  have hrm : usage (removeOld s k') ≤ usage s := by
    unfold removeOld
    cases findInCache s.entries k' with
    | none => exact le_refl _
    | some j => exact usage_removeFromTable_le s j
  have husage : usage (publish (removeOld s k') k' v' c)
      ≤ (publish (removeOld s k') k' v' c).capacity := by
    have hp : usage (publish (removeOld s k') k' v' c)
        = usage (removeOld s k') + c := publish_usage _ k' v' c
    have hcp : (publish (removeOld s k') k' v' c).capacity = s.capacity :=
      removeOld_capacity s k'
    rw [hp, hcp]
    omega
  have h3 : (insert s k' v' c).2 = publish (removeOld s k') k' v' c := by
    show evictLoop (removeOld s k').lru.length (publish (removeOld s k') k' v' c) = _
    exact evictLoop_noop husage
  have hne2 : i ≠ (insert s k' v' c).1 := by
    show i ≠ (removeOld s k').entries.length
    omega
  refine ⟨i, e, ?_, hein, hek, hev⟩
  show entryAt (unref (insert s k' v' c).2 (insert s k' v' c).1).entries i = some e
  rw [unref_entryAt_ne _ hne2, h3]
  exact h2

theorem keyMapsTo_runOp {s : CacheState} {k v : Nat} {o : Op} (hInv : Inv s)
    (h : KeyMapsTo s k v) (hins : insertsKey o k = false)
    (hera : erasesKey o k = false)
    (hcap : ∀ k' v' c, o = Op.ins k' v' c → usage s + c ≤ s.capacity) :
    KeyMapsTo (runOp s o) k v := by
  cases o with
  | ins k' v' c =>
    have hne : k' ≠ k := by simpa [insertsKey] using hins
    exact keyMapsTo_insertOp hne (hcap k' v' c rfl) h
  | look k' => exact keyMapsTo_lookupOp hInv h
  | era k' =>
    have hne : k' ≠ k := by simpa [erasesKey] using hera
    exact keyMapsTo_erase hne h

/-! ### Scenario definitions used by the claims -/

/-! ### The claims -/

/-- C1: Insert(k,v1), pin it with a Lookup handle, then Insert(k,v2): the
held handle still reads v1, a fresh Lookup reads v2, no eviction callback
has fired yet, and releasing the old handle fires the first entry's
callback with (k, v1) exactly once. -/
theorem overwrite_pinned_visibility (cap k v1 v2 : Nat) (_hne : v1 ≠ v2) :
    (lookup (insertOp (initCache cap) k v1 1) k).1 = some 0 ∧
    value (insertOp (lookup (insertOp (initCache cap) k v1 1) k).2 k v2 1) 0 = some v1 ∧
    lookupVal (insertOp (lookup (insertOp (initCache cap) k v1 1) k).2 k v2 1) k
      = some v2 ∧
    (insertOp (lookup (insertOp (initCache cap) k v1 1) k).2 k v2 1).callbacks = [] ∧
    (unref (insertOp (lookup (insertOp (initCache cap) k v1 1) k).2 k v2 1) 0).callbacks
      = [(0, k, v1)] := by
  simp [insertOp, insert, removeOld, publish, evictLoop, findInCache, removeFromTable,
    unref, lookup, lookupOp, lookupVal, value, entryAt, modifyEntry, inCacheWeight,
    usage, initCache]

/-- C1 witness: the spec's concrete numbers 100/101/102. -/
theorem overwrite_pinned_visibility_witness :
    (lookup (insertOp (initCache 14) 100 101 1) 100).1 = some 0 ∧
    value (insertOp (lookup (insertOp (initCache 14) 100 101 1) 100).2 100 102 1) 0
      = some 101 ∧
    lookupVal (insertOp (lookup (insertOp (initCache 14) 100 101 1) 100).2 100 102 1) 100
      = some 102 ∧
    (insertOp (lookup (insertOp (initCache 14) 100 101 1) 100).2 100 102 1).callbacks
      = [] ∧
    (unref (insertOp (lookup (insertOp (initCache 14) 100 101 1) 100).2 100 102 1)
      0).callbacks = [(0, 100, 101)] :=
  overwrite_pinned_visibility 14 100 101 102 (by decide)

/-- C2: Erase of a pinned key makes Lookup miss, leaves the handle's Value
readable, fires no callback at erase time, and the release of the handle
fires the callback exactly once with the entry's key and value. -/
theorem erase_pinned_deferred_teardown (cap k v : Nat) :
    (lookup (insertOp (initCache cap) k v 1) k).1 = some 0 ∧
    lookupVal (erase (lookup (insertOp (initCache cap) k v 1) k).2 k) k = none ∧
    value (erase (lookup (insertOp (initCache cap) k v 1) k).2 k) 0 = some v ∧
    (erase (lookup (insertOp (initCache cap) k v 1) k).2 k).callbacks = [] ∧
    (unref (erase (lookup (insertOp (initCache cap) k v 1) k).2 k) 0).callbacks
      = [(0, k, v)] := by
  simp [insertOp, insert, removeOld, publish, evictLoop, findInCache, removeFromTable,
    unref, lookup, lookupOp, lookupVal, value, erase, entryAt, modifyEntry,
    inCacheWeight, usage, initCache]

/-- C3: in every reachable state, the eviction callback has fired at most
once per entry (the log's ghost ids are duplicate-free), only for entries
that reached refcount 0 after leaving the table (and were deallocated),
with their final key/value; and no logged entry is returned by any
Lookup. -/
theorem eviction_callback_at_most_once {cap : Nat} {s : CacheState}
    (h : Reachable cap s) :
    (s.callbacks.map (fun c => c.1)).Nodup ∧
    (∀ c ∈ s.callbacks, ∃ e, entryAt s.entries c.1 = some e ∧
      e.refcount = 0 ∧ e.in_cache = false ∧ e.live = false ∧
      e.key = c.2.1 ∧ e.value = c.2.2) ∧
    (∀ c ∈ s.callbacks, ∀ k', (lookup s k').1 ≠ some c.1) := by
  obtain ⟨_, _, _, hlog⟩ := inv_reachable h
  refine ⟨hlog.1, ?_, ?_⟩
  · intro c hc
    obtain ⟨e, he, hfl, hfc, hfr, hfk, hfv⟩ := hlog.2 c hc
    exact ⟨e, he, hfr, hfc, hfl, hfk, hfv⟩
  · intro c hc k' hcon
    rw [lookup_fst] at hcon
    obtain ⟨e, he, hein, _⟩ := findInCache_some_spec hcon
    obtain ⟨f, hf, _, hfc, _⟩ := hlog.2 c hc
    rw [hf] at he
    cases he
    rw [hfc] at hein
    exact Bool.noConfusion hein

/-- C3 witness: the state after Insert(1,10) then an overwriting
Insert(1,11), where exactly one callback (for entry 0) has fired. -/
theorem eviction_callback_at_most_once_witness :
    ((insertOp (insertOp (initCache 4) 1 10 1) 1 11 1).callbacks.map
      (fun c => c.1)).Nodup ∧
    (∀ c ∈ (insertOp (insertOp (initCache 4) 1 10 1) 1 11 1).callbacks,
      ∃ e, entryAt (insertOp (insertOp (initCache 4) 1 10 1) 1 11 1).entries c.1
          = some e ∧
        e.refcount = 0 ∧ e.in_cache = false ∧ e.live = false ∧
        e.key = c.2.1 ∧ e.value = c.2.2) ∧
    (∀ c ∈ (insertOp (insertOp (initCache 4) 1 10 1) 1 11 1).callbacks,
      ∀ k', (lookup (insertOp (insertOp (initCache 4) 1 10 1) 1 11 1) k').1
        ≠ some c.1) :=
  eviction_callback_at_most_once
    (Relation.ReflTransGen.tail
      (Relation.ReflTransGen.tail Relation.ReflTransGen.refl
        (Step.ins (initCache 4) 1 10 1))
      (Step.ins (insertOp (initCache 4) 1 10 1) 1 11 1))

/-- C4 counterexample: one unpinned insert whose charge 21 exceeds the
capacity 10; the cumulative charge exceeds capacity and nothing is pinned,
yet the entry remains retrievable and the retrievable weight 21 exceeds
capacity × 1.1 = 11.  The claim as stated is false without a bound on the
individual charges. -/
theorem bounded_usage_unpinned_cex :
    10 < totalCharge [Op.ins 1 5 21] ∧
    lookupVal (runOps (initCache 10) [Op.ins 1 5 21]) 1 = some 5 ∧
    usage (runOps (initCache 10) [Op.ins 1 5 21]) = 21 ∧
    ¬ usage (runOps (initCache 10) [Op.ins 1 5 21]) ≤ 10 + 10 / 10 := by
  decide

/-- C4 (amended): for every insert-only trace with no pinned entries in
which every individual charge is at most the capacity, the sum of charges
of entries still retrievable by Lookup (the usage) stays within capacity —
in particular within capacity plus a tenth. -/
theorem bounded_usage_unpinned {cap : Nat} {ops : List Op}
    (hops : ∀ o ∈ ops, ∃ k v c, o = Op.ins k v c ∧ c ≤ cap) :
    usage (runOps (initCache cap) ops) ≤ cap ∧
    usage (runOps (initCache cap) ops) ≤ cap + cap / 10 := by
  have h := insertTrace_aux (inv_init cap) (allTableOnly_init cap) rfl
    (Nat.zero_le cap) hops
  exact ⟨h.2.2.2, le_trans h.2.2.2 (Nat.le_add_right cap (cap / 10))⟩

/-- C4 witness: charges 1, 2, 1 against capacity 2 (cumulative 4 > 2). -/
theorem bounded_usage_unpinned_witness :
    2 < totalCharge [Op.ins 1 1 1, Op.ins 2 2 2, Op.ins 3 3 1] ∧
    usage (runOps (initCache 2) [Op.ins 1 1 1, Op.ins 2 2 2, Op.ins 3 3 1]) ≤ 2 ∧
    usage (runOps (initCache 2) [Op.ins 1 1 1, Op.ins 2 2 2, Op.ins 3 3 1])
      ≤ 2 + 2 / 10 := by
  refine ⟨by decide, ?_, ?_⟩
  · refine (bounded_usage_unpinned ?_).1
    intro o ho
    simp only [List.mem_cons, List.not_mem_nil, or_false] at ho
    rcases ho with rfl | rfl | rfl
    · exact ⟨1, 1, 1, rfl, by decide⟩
    · exact ⟨2, 2, 2, rfl, by decide⟩
    · exact ⟨3, 3, 1, rfl, by decide⟩
  · refine (bounded_usage_unpinned ?_).2
    intro o ho
    simp only [List.mem_cons, List.not_mem_nil, or_false] at ho
    rcases ho with rfl | rfl | rfl
    · exact ⟨1, 1, 1, rfl, by decide⟩
    · exact ⟨2, 2, 2, rfl, by decide⟩
    · exact ⟨3, 3, 1, rfl, by decide⟩

/-- C5: Lookup of an absent key — never inserted along the trace, or since
erased — returns the Miss sentinel, not an error; for a key currently
published with value v (inserted and not yet overwritten, erased or
evicted), Lookup reads v: an insert publishes the mapping, and the mapping
survives every lookup, every operation on other keys (when the insert does
not push usage past capacity, so no eviction runs); and a Lookup leaves
the value observed for every other key unchanged.  The last conjunct is
the cited test's own trace: Insert(100,101); Insert(200,201);
Lookup(100) = 101, Lookup(200) = 201, Lookup(300) misses. -/
theorem lookup_miss_hit_no_interference :
    (∀ (s : CacheState) (k : Nat), NoKeyInCache s k → lookupVal s k = none) ∧
    (∀ (cap : Nat) (ops : List Op) (k : Nat), (∀ o ∈ ops, insertsKey o k = false) →
      lookupVal (runOps (initCache cap) ops) k = none) ∧
    (∀ (s : CacheState) (k : Nat) (ops : List Op), Inv s →
      (∀ o ∈ ops, insertsKey o k = false) →
      lookupVal (runOps (erase s k) ops) k = none) ∧
    (∀ (s : CacheState) (k v : Nat), Inv s → KeyMapsTo s k v →
      lookupVal s k = some v) ∧
    (∀ (s : CacheState) (k v c : Nat), Inv s → KeyMapsTo (insertOp s k v c) k v) ∧
    (∀ (s : CacheState) (k v : Nat) (o : Op), Inv s → KeyMapsTo s k v →
      insertsKey o k = false → erasesKey o k = false →
      (∀ k' v' c, o = Op.ins k' v' c → usage s + c ≤ s.capacity) →
      KeyMapsTo (runOp s o) k v) ∧
    (∀ (s : CacheState) (k k' : Nat), Inv s →
      lookupVal ((lookupOp s k).2) k' = lookupVal s k') ∧
    (lookupVal (runOps (initCache 5) [Op.ins 100 101 1, Op.ins 200 201 1]) 100
        = some 101 ∧
      lookupVal (runOps (initCache 5) [Op.ins 100 101 1, Op.ins 200 201 1]) 200
        = some 201 ∧
      lookupVal (runOps (initCache 5) [Op.ins 100 101 1, Op.ins 200 201 1]) 300
        = none) := by
  refine ⟨?_, ?_, ?_, ?_, ?_, ?_, ?_, ?_⟩
  · intro s k h
    exact noKeyInCache_lookupVal h
  · intro cap ops k hops
    exact noKeyInCache_lookupVal (noKey_runOps (noKey_init cap k) hops)
  · intro s k ops hInv hops
    exact noKeyInCache_lookupVal (noKey_runOps (noKey_erase_self hInv) hops)
  · intro s k v hInv h
    exact keyMapsTo_lookupVal hInv h
  · intro s k v c hInv
    exact keyMapsTo_insert_self hInv
  · intro s k v o hInv h hins hera hcap
    exact keyMapsTo_runOp hInv h hins hera hcap
  · intro s k k' hInv
    exact lookupOp_no_interference hInv
  · refine ⟨?_, ?_, ?_⟩ <;> decide

/-- C5 witness: an erased key misses afterwards; an inserted mapping is
read back, survives an intervening insert of another key (the cited
test's 100/101 across Insert(200,201)) and a lookup of another key; and a
lookup of one key leaves another key's observation unchanged. -/
theorem lookup_miss_hit_no_interference_witness :
    lookupVal (runOps (initCache 5) [Op.ins 1 2 1]) 3 = none ∧
    lookupVal (runOps (erase (insertOp (initCache 5) 1 2 1) 1) []) 1 = none ∧
    lookupVal (insertOp (initCache 5) 4 7 1) 4 = some 7 ∧
    KeyMapsTo (runOp (insertOp (initCache 5) 100 101 1) (Op.ins 200 201 1)) 100 101 ∧
    lookupVal ((lookupOp (insertOp (initCache 5) 4 7 1) 4).2) 9
      = lookupVal (insertOp (initCache 5) 4 7 1) 9 :=
  ⟨lookup_miss_hit_no_interference.2.1 5 [Op.ins 1 2 1] 3 (by decide),
   lookup_miss_hit_no_interference.2.2.1 (insertOp (initCache 5) 1 2 1) 1 []
     (inv_insertOp (inv_init 5)) (by decide),
   lookup_miss_hit_no_interference.2.2.2.1 (insertOp (initCache 5) 4 7 1) 4 7
     (inv_insertOp (inv_init 5)) ⟨0, Entry.mk 4 7 1 1 true true, by decide,
       by decide, by decide, by decide⟩,
   lookup_miss_hit_no_interference.2.2.2.2.2.1 (insertOp (initCache 5) 100 101 1)
     100 101 (Op.ins 200 201 1) (inv_insertOp (inv_init 5))
     ⟨0, Entry.mk 100 101 1 1 true true, by decide, by decide, by decide, by decide⟩
     (by decide) (by decide)
     (fun k' v' c h => by cases h; decide),
   lookup_miss_hit_no_interference.2.2.2.2.2.2.1 (insertOp (initCache 5) 4 7 1) 4 9
     (inv_insertOp (inv_init 5))⟩

/-- C6: a Lookup hit on an unpinned entry moves it to the most-recently-used
end of the LRU list; the eviction pass removes victims from the
least-recently-used (head) end; and in the pressure scenario the key that
is looked up after every insertion survives while the comparable
never-re-accessed key is evicted. -/
theorem recency_protection :
    (∀ (s : CacheState) (k i : Nat) (e : Entry),
      entryAt s.entries i = some e → e.in_cache = true → e.refcount = 1 →
      e.live = true → findInCache s.entries k = some i →
      ((lookupOp s k).2).lru = s.lru.filter (fun j => j ≠ i) ++ [i] ∧
      (lookupOp s k).1 = some e.value) ∧
    (∀ (fuel : Nat) (s : CacheState) (v : Nat) (rest : List Nat),
      ¬ usage s ≤ s.capacity → s.lru = v :: rest →
      evictLoop (fuel + 1) s = evictLoop fuel (removeFromTable s v)) ∧
    (lookupVal (runOps (initCache 4) evictionScenario) 1 = some 100 ∧
     lookupVal (runOps (initCache 4) evictionScenario) 2 = none) := by
  refine ⟨?_, ?_, ?_⟩
  · intro s k i e he hein herc helive hf
    exact lookup_promotes he hein herc helive hf
  · intro fuel s v rest hover hl
    exact evict_takes_oldest hover hl
  · constructor <;> decide

/-- C6 witness: promotion on a one-entry cache, head eviction on an
over-capacity cache, and the hot key of the closed pressure scenario. -/
theorem recency_protection_witness :
    (((lookupOp (insertOp (initCache 5) 1 7 1) 1).2).lru
        = (insertOp (initCache 5) 1 7 1).lru.filter (fun j => j ≠ 0) ++ [0] ∧
      (lookupOp (insertOp (initCache 5) 1 7 1) 1).1
        = some (Entry.mk 1 7 1 1 true true).value) ∧
    evictLoop 1 (insertOp (initCache 0) 3 4 2)
      = evictLoop 0 (removeFromTable (insertOp (initCache 0) 3 4 2) 0) ∧
    lookupVal (runOps (initCache 4) evictionScenario) 1 = some 100 :=
  ⟨recency_protection.1 (insertOp (initCache 5) 1 7 1) 1 0
      (Entry.mk 1 7 1 1 true true) (by decide) (by decide) (by decide)
      (by decide) (by decide),
   recency_protection.2.1 0 (insertOp (initCache 0) 3 4 2) 0 [] (by decide)
      (by decide),
   (recency_protection.2.2).1⟩

/-- C7: with the approximation ratio 0 the tracker is exact: Insert(k,
charge 1) followed by the insert handle's release raises consumption from
0 to exactly 1; Erase(k) returns it to exactly 0; peak consumption stays
at the historical maximum 1. -/
theorem memtracker_exact (cap k v : Nat) :
    consumption (initCache cap) = 0 ∧
    consumption (insertOp (initCache cap) k v 1) = 1 ∧
    (insertOp (initCache cap) k v 1).peak = 1 ∧
    consumption (erase (insertOp (initCache cap) k v 1) k) = 0 ∧
    (erase (insertOp (initCache cap) k v 1) k).peak = 1 := by
  simp [insertOp, insert, removeOld, publish, evictLoop, findInCache, removeFromTable,
    unref, lookup, lookupOp, lookupVal, value, erase, entryAt, modifyEntry,
    inCacheWeight, usage, consumption, initCache]

/-- C8: Erase of an absent key is the identity on the whole cache state —
no callback, no effect on any other key — and a second Erase after a
successful one is likewise a no-op. -/
theorem erase_absent_idempotent :
    (∀ (s : CacheState) (k : Nat), NoKeyInCache s k → erase s k = s) ∧
    (∀ (s : CacheState) (k : Nat), Inv s → erase (erase s k) k = erase s k) := by
  refine ⟨fun s k h => erase_absent h, fun s k hInv => ?_⟩
  exact erase_absent (noKey_erase_self hInv)

/-- C8 witness: erase on an empty cache, and a double erase after one
insert. -/
theorem erase_absent_idempotent_witness :
    erase (initCache 5) 1 = initCache 5 ∧
    erase (erase (insertOp (initCache 5) 1 2 1) 1) 1
      = erase (insertOp (initCache 5) 1 2 1) 1 :=
  ⟨erase_absent_idempotent.1 (initCache 5) 1 (noKey_init 5 1),
   erase_absent_idempotent.2 (insertOp (initCache 5) 1 2 1) 1
     (inv_insertOp (inv_init 5))⟩

/-- C9: overwriting an unpinned entry fires the replaced entry's eviction
callback with the old key and value synchronously — the log holds exactly
that one record already when the overwriting Insert returns, before the
new handle is released. -/
theorem overwrite_unpinned_sync_callback (cap k v1 v2 : Nat) :
    (insertOp (initCache cap) k v1 1).callbacks = [] ∧
    (insert (insertOp (initCache cap) k v1 1) k v2 1).2.callbacks = [(0, k, v1)] := by
  simp [insertOp, insert, removeOld, publish, evictLoop, findInCache, removeFromTable,
    unref, lookup, lookupOp, lookupVal, value, erase, entryAt, modifyEntry,
    inCacheWeight, usage, initCache]

/-- C10: from any well-formed state — over capacity or not — a Lookup
immediately following Insert(k,v) yields v: the eviction pass triggered by
the Insert never selects the entry being published. -/
theorem fresh_insert_retrievable {s : CacheState} {k v c : Nat} (hInv : Inv s) :
    lookupVal (insertOp s k v c) k = some v :=
  insertOp_lookupVal hInv

/-- C10 witness: the cache is already over capacity (usage 5 against
capacity 1) when the second insert lands; its key is still retrievable. -/
theorem fresh_insert_retrievable_witness :
    lookupVal (insertOp (insertOp (initCache 1) 7 8 5) 9 10 5) 9 = some 10 :=
  fresh_insert_retrievable (inv_insertOp (inv_init 1))

end KuduCache
